import Mathlib

/-!
Verification of the CF1 (Coxian phase-type, canonical form 1) numerical
engine exposed by `src/cf1.cpp` (`C_cf1pdf`, `C_cf1cdf`, `C_cf1sample`,
`C_cf1reform`, `C_cf1sojourn`, `em_cf1_emstep`).

The file shallowly embeds the code over `ℝ`:

* `src/cf1.cpp` is translated definition by definition (the loops become
  structural recursions, `NumericVector` becomes `List ℝ`, per-phase state
  vectors become functions `ℕ → ℝ` read up to the phase count).
* The `marlib` headers the file includes (`poisson.h`, `blas1.h`, `ctmc.h`,
  `cf1utils.h`) are not part of the sources; every definition taken from
  them is marked "Modelled from the spec:" and follows the specification's
  description of that routine.
* Buffer mutation questions (which vectors a call writes) are settled over
  an explicit store model: vectors live in a `Store`, cloning allocates a
  fresh cell, in-place updates write a cell, and the embedded operations
  thread the store exactly as the source threads its `NumericVector`s.
  A `pmf` fill is checked against the bounds of its buffer: an index range
  that leaves the buffer is an out-of-bounds write — undefined behavior in
  the C++ — and the run is modelled as aborting (`none`) at that write
  rather than completing.
-/

/-- Modelled from the spec: the Poisson(λ) probability mass at `j`,
`e^{-λ} λ^j / j!` (`poisson.h` is not under the sources; section 4.3 of the
specification describes the Poisson weight engine). -/
noncomputable def cf1Pois (lam : ℝ) (j : ℕ) : ℝ :=
  Real.exp (-lam) * lam ^ j / (Nat.factorial j : ℝ)

/-- Modelled from the spec: the retained Poisson mass up to and including
index `r` (the cumulative distribution at `r`). -/
noncomputable def poissonCdfSum (lam : ℝ) (r : ℕ) : ℝ :=
  ∑ j ∈ Finset.range (r + 1), cf1Pois lam j

/-- Modelled from the spec: the Poisson tail mass strictly beyond index `r`,
expressed through the total mass 1 of the distribution. -/
noncomputable def poissonTail (lam : ℝ) (r : ℕ) : ℝ :=
  1 - poissonCdfSum lam r

/-- Modelled from the spec: `rightbound(λ, eps)` returns the smallest
truncation index `r` such that the Poisson(λ) tail beyond `r` has mass
below `eps` (`poisson.h` is not under the sources). -/
noncomputable def rightbound (lam eps : ℝ) : ℕ :=
  sInf {r : ℕ | poissonTail lam r < eps}

/-- Modelled from the spec: the set of buffer indices `pmf(λ, lo, hi, buf)`
writes: it fills `buf[lo..hi]` with Poisson masses. -/
def pmfWrites (lo hi : ℕ) : Finset ℕ := Finset.Icc lo hi

/-- Modelled from the spec: the retained total mass (weight) returned by
`pmf(λ, lo, hi, buf)`: the sum of the Poisson masses over `lo..hi`. -/
noncomputable def pmfWeight (lam : ℝ) (lo hi : ℕ) : ℝ :=
  ∑ j ∈ Finset.Icc lo hi, cf1Pois lam j

lemma cf1Pois_nonneg {lam : ℝ} (h : 0 ≤ lam) (j : ℕ) : 0 ≤ cf1Pois lam j := by
  unfold cf1Pois
  positivity

lemma cf1Pois_zero_zero : cf1Pois 0 0 = 1 := by
  simp [cf1Pois]

lemma Icc_zero_eq_range (r : ℕ) : Finset.Icc 0 r = Finset.range (r + 1) := by
  ext j
  simp [Nat.lt_succ_iff]

lemma pmfWeight_eq_sum_range (lam : ℝ) (r : ℕ) :
    pmfWeight lam 0 r = ∑ j ∈ Finset.range (r + 1), cf1Pois lam j := by
  rw [pmfWeight, Icc_zero_eq_range]

lemma pmfWeight_pos {lam : ℝ} (h : 0 ≤ lam) (r : ℕ) : 0 < pmfWeight lam 0 r := by
  rw [pmfWeight_eq_sum_range]
  have h0 : 0 < cf1Pois lam 0 := by
    unfold cf1Pois
    positivity
  have hle : cf1Pois lam 0 ≤ ∑ j ∈ Finset.range (r + 1), cf1Pois lam j := by
    refine Finset.single_le_sum (fun j _ => cf1Pois_nonneg h j) ?_
    simp
  linarith

lemma cf1Pois_hasSum (lam : ℝ) : HasSum (cf1Pois lam) 1 := by
  have hs : HasSum (fun j : ℕ => lam ^ j / (Nat.factorial j : ℝ)) (Real.exp lam) := by
    have := NormedSpace.expSeries_div_hasSum_exp ℝ lam
    rwa [← Real.exp_eq_exp_ℝ] at this
  have hm := hs.mul_left (Real.exp (-lam))
  have hval : Real.exp (-lam) * Real.exp lam = 1 := by
    rw [← Real.exp_add]
    simp
  rw [hval] at hm
  refine hm.congr_fun ?_
  intro j
  rw [cf1Pois, mul_div_assoc]

lemma tendsto_poissonCdfSum (lam : ℝ) :
    Filter.Tendsto (fun r => poissonCdfSum lam r) Filter.atTop (nhds 1) := by
  have h1 := (cf1Pois_hasSum lam).tendsto_sum_nat
  have h2 := Filter.tendsto_add_atTop_nat 1
  have h3 := h1.comp h2
  exact h3

lemma exists_poissonTail_lt (lam : ℝ) {eps : ℝ} (heps : 0 < eps) :
    ∃ r, poissonTail lam r < eps := by
  have h : Filter.Tendsto (fun r => poissonTail lam r) Filter.atTop (nhds 0) := by
    have hc : Filter.Tendsto (fun _ : ℕ => (1 : ℝ)) Filter.atTop (nhds 1) :=
      tendsto_const_nhds
    have := hc.sub (tendsto_poissonCdfSum lam)
    simpa [poissonTail] using this
  exact (h.eventually (gt_mem_nhds heps)).exists

lemma rightbound_mem {lam eps : ℝ} (heps : 0 < eps) :
    poissonTail lam (rightbound lam eps) < eps := by
  have hne : {r : ℕ | poissonTail lam r < eps}.Nonempty := exists_poissonTail_lt lam heps
  exact Nat.sInf_mem hne

lemma rightbound_le {lam eps : ℝ} {r : ℕ} (h : poissonTail lam r < eps) :
    rightbound lam eps ≤ r :=
  Nat.sInf_le h

lemma poissonCdfSum_eq (lam : ℝ) (r : ℕ) :
    poissonCdfSum lam r =
      Real.exp (-lam) * ∑ j ∈ Finset.range (r + 1), lam ^ j / (Nat.factorial j : ℝ) := by
  rw [poissonCdfSum, Finset.mul_sum]
  refine Finset.sum_congr rfl ?_
  intro j _
  rw [cf1Pois, mul_div_assoc]

lemma expPartial_hasDerivAt (r : ℕ) (x : ℝ) :
    HasDerivAt (fun y => ∑ j ∈ Finset.range (r + 1), y ^ j / (Nat.factorial j : ℝ))
      (∑ j ∈ Finset.range r, x ^ j / (Nat.factorial j : ℝ)) x := by
  have h : HasDerivAt (fun y => ∑ j ∈ Finset.range (r + 1), y ^ j / (Nat.factorial j : ℝ))
      (∑ j ∈ Finset.range (r + 1), (j : ℝ) * x ^ (j - 1) / (Nat.factorial j : ℝ)) x := by
    refine HasDerivAt.sum ?_
    intro j _
    exact (hasDerivAt_pow j x).div_const _
  have hsum : (∑ j ∈ Finset.range (r + 1), (j : ℝ) * x ^ (j - 1) / (Nat.factorial j : ℝ)) =
      ∑ j ∈ Finset.range r, x ^ j / (Nat.factorial j : ℝ) := by
    rw [Finset.sum_range_succ']
    have h0 : ((0 : ℕ) : ℝ) * x ^ (0 - 1) / (Nat.factorial 0 : ℝ) = 0 := by simp
    rw [h0, add_zero]
    refine Finset.sum_congr rfl ?_
    intro j _
    have hfac : (Nat.factorial (j + 1) : ℝ) = ((j : ℝ) + 1) * (Nat.factorial j : ℝ) := by
      rw [Nat.factorial_succ]
      push_cast
      ring
    have hne : ((j : ℝ) + 1) ≠ 0 := by positivity
    rw [hfac]
    push_cast
    rw [mul_div_mul_left _ _ hne]
  rwa [hsum] at h

lemma poissonCdfSum_hasDerivAt (r : ℕ) (x : ℝ) :
    HasDerivAt (fun y => poissonCdfSum y r)
      (-(Real.exp (-x) * x ^ r / (Nat.factorial r : ℝ))) x := by
  have hexp : HasDerivAt (fun y : ℝ => Real.exp (-y)) (-Real.exp (-x)) x := by
    have h1 := (Real.hasDerivAt_exp (-x)).comp x (hasDerivAt_neg x)
    simpa [mul_comm] using h1
  have hS := expPartial_hasDerivAt r x
  have hmul := hexp.mul hS
  have heq : (fun y => Real.exp (-y) *
      ∑ j ∈ Finset.range (r + 1), y ^ j / (Nat.factorial j : ℝ)) =
      fun y => poissonCdfSum y r := by
    funext y
    rw [poissonCdfSum_eq]
  rw [heq] at hmul
  have hval : -Real.exp (-x) * (∑ j ∈ Finset.range (r + 1), x ^ j / (Nat.factorial j : ℝ)) +
      Real.exp (-x) * ∑ j ∈ Finset.range r, x ^ j / (Nat.factorial j : ℝ) =
      -(Real.exp (-x) * x ^ r / (Nat.factorial r : ℝ)) := by
    rw [Finset.sum_range_succ]
    ring
  rwa [hval] at hmul

lemma poissonCdfSum_antitoneOn (r : ℕ) :
    AntitoneOn (fun lam => poissonCdfSum lam r) (Set.Ici (0 : ℝ)) := by
  refine antitoneOn_of_deriv_nonpos (convex_Ici 0) ?_ ?_ ?_
  · intro x _
    exact ((poissonCdfSum_hasDerivAt r x).continuousAt).continuousWithinAt
  · intro x _
    exact ((poissonCdfSum_hasDerivAt r x).differentiableAt).differentiableWithinAt
  · intro x hx
    rw [interior_Ici] at hx
    rw [(poissonCdfSum_hasDerivAt r x).deriv]
    have hx0 : (0 : ℝ) ≤ x := le_of_lt hx
    have h1 : 0 ≤ Real.exp (-x) * x ^ r / (Nat.factorial r : ℝ) := by positivity
    linarith

lemma poissonTail_mono {a b : ℝ} (ha : 0 ≤ a) (hab : a ≤ b) (r : ℕ) :
    poissonTail a r ≤ poissonTail b r := by
  have hb : (0 : ℝ) ≤ b := le_trans ha hab
  have := poissonCdfSum_antitoneOn r ha hb hab
  unfold poissonTail
  linarith

lemma rightbound_mono {a b eps : ℝ} (ha : 0 ≤ a) (hab : a ≤ b) (heps : 0 < eps) :
    rightbound a eps ≤ rightbound b eps := by
  have hb : poissonTail b (rightbound b eps) < eps := rightbound_mem heps
  have h1 : poissonTail a (rightbound b eps) < eps :=
    lt_of_le_of_lt (poissonTail_mono ha hab _) hb
  exact rightbound_le h1

lemma poissonTail_zero (r : ℕ) : poissonTail 0 r = 0 := by
  have h1 : poissonCdfSum 0 r = 1 := by
    rw [poissonCdfSum_eq]
    have h2 : (∑ j ∈ Finset.range (r + 1), (0 : ℝ) ^ j / (Nat.factorial j : ℝ)) = 1 := by
      rw [Finset.sum_range_succ']
      simp
    rw [h2]
    simp
  rw [poissonTail, h1]
  ring

lemma rightbound_zero {eps : ℝ} (heps : 0 < eps) : rightbound 0 eps = 0 := by
  have h : poissonTail 0 0 < eps := by
    rw [poissonTail_zero]
    exact heps
  exact Nat.le_zero.mp (rightbound_le h)

lemma pmfWeight_zero : pmfWeight 0 0 0 = 1 := by
  rw [pmfWeight_eq_sum_range]
  simp [cf1Pois_zero_zero]

/-- Modelled from the spec: the largest phase exit rate of the CF1 chain
(section 4.2: the maximum total outflow rate; for CF1 the outflow at phase
`i` is `rate[i]`). -/
def rateMax (rate : List ℝ) : ℝ := rate.foldr max 0

/-- Modelled from the spec: `unif` returns the dominant rate
`qv = ufactor * max_i rate[i]` of the uniformized chain (`ctmc.h` is not
under the sources; section 4.2). -/
def cf1unif (rate : List ℝ) (ufactor : ℝ) : ℝ := ufactor * rateMax rate

/-- Modelled from the spec: the in-place content of the cloned rate vector
`P` after `unif` ran on it: the uniformized transition data `rate[i]/qv`. -/
noncomputable def unifVec (rate : List ℝ) (ufactor : ℝ) : List ℝ :=
  rate.map (fun r => r / cf1unif rate ufactor)

/-- Modelled from the spec: one application of the transposed uniformized
CF1 operator `(I + Gᵗ/qv)` to a state vector (sections 3 and 4.1: phase `i`
keeps mass with weight `1 - rate[i]/qv` and receives mass from phase `i-1`
with weight `rate[i-1]/qv`). -/
noncomputable def Pstep (rate : List ℝ) (qv : ℝ) (x : ℕ → ℝ) : ℕ → ℝ :=
  fun i =>
    (1 - rate.getD i 0 / qv) * x i +
      (if i = 0 then 0 else rate.getD (i - 1) 0 / qv * x (i - 1))

/-- Modelled from the spec: `mexpv` computes
`y = (Σ_{j=0}^{right} prob[j] · Pʲ·v) / weight` (section 4.4; `ctmc.h` is
not under the sources). -/
noncomputable def mexpv (rate : List ℝ) (qv : ℝ) (prob : ℕ → ℝ) (right : ℕ)
    (weight : ℝ) (v : ℕ → ℝ) : ℕ → ℝ :=
  fun i => (∑ j ∈ Finset.range (right + 1), prob j * (Pstep rate qv)^[j] v i) / weight

/-- One loop iteration of `C_cf1pdf`/`C_cf1cdf` (src/cf1.cpp lines 44-48 and
78-82): compute the truncation bound and Poisson weights for `qv*t` and run
`mexpv` on the carried state vector. -/
noncomputable def cf1Propagate (rate : List ℝ) (qv eps t : ℝ) (x : ℕ → ℝ) : ℕ → ℝ :=
  mexpv rate qv (cf1Pois (qv * t)) (rightbound (qv * t) eps)
    (pmfWeight (qv * t) 0 (rightbound (qv * t) eps)) x

/-- Modelled from the spec: BLAS `dasum`, the sum of absolute values of the
first `n` components (`blas1.h` is not under the sources). -/
noncomputable def dasum (n : ℕ) (x : ℕ → ℝ) : ℝ :=
  ∑ i ∈ Finset.range n, |x i|

/-- Modelled from the spec: BLAS `idamax`, the index of the first component
of largest absolute value (`blas1.h` is not under the sources). -/
noncomputable def idamax (x : List ℝ) : ℕ :=
  (List.range x.length).foldl (fun b i => if |x.getD b 0| < |x.getD i 0| then i else b) 0

lemma idamax_foldl_le (x : List ℝ) :
    ∀ (L : List ℕ) (b : ℕ),
      |x.getD b 0| ≤
        |x.getD (L.foldl (fun b i => if |x.getD b 0| < |x.getD i 0| then i else b) b) 0| ∧
      ∀ i ∈ L,
        |x.getD i 0| ≤
          |x.getD (L.foldl (fun b i => if |x.getD b 0| < |x.getD i 0| then i else b) b) 0| := by
  intro L
  induction L with
  | nil =>
    intro b
    refine ⟨le_refl _, ?_⟩
    intro i hi
    exact absurd hi (List.not_mem_nil i)
  | cons a L ih =>
    intro b
    have step : List.foldl (fun b i => if |x.getD b 0| < |x.getD i 0| then i else b) b (a :: L) =
        List.foldl (fun b i => if |x.getD b 0| < |x.getD i 0| then i else b)
          (if |x.getD b 0| < |x.getD a 0| then a else b) L := rfl
    set b2 := if |x.getD b 0| < |x.getD a 0| then a else b with hb2
    have hb : |x.getD b 0| ≤ |x.getD b2 0| := by
      rw [hb2]
      by_cases h : |x.getD b 0| < |x.getD a 0|
      · rw [if_pos h]
        exact le_of_lt h
      · rw [if_neg h]
    have ha : |x.getD a 0| ≤ |x.getD b2 0| := by
      rw [hb2]
      by_cases h : |x.getD b 0| < |x.getD a 0|
      · rw [if_pos h]
      · rw [if_neg h]
        exact le_of_not_lt h
    obtain ⟨ih1, ih2⟩ := ih b2
    rw [step]
    refine ⟨le_trans hb ih1, ?_⟩
    intro i hi
    rcases List.mem_cons.mp hi with h | h
    · subst h
      exact le_trans ha ih1
    · exact ih2 i h

lemma getD_mem_of_lt {l : List ℝ} {i : ℕ} (h : i < l.length) : l.getD i 0 ∈ l := by
  rw [List.getD_eq_getElem l 0 h]
  exact List.getElem_mem h

lemma getD_nonneg {l : List ℝ} (hl : ∀ a ∈ l, 0 ≤ a) (i : ℕ) : 0 ≤ l.getD i 0 := by
  rcases lt_or_le i l.length with h | h
  · exact hl _ (getD_mem_of_lt h)
  · rw [List.getD_eq_default _ _ h]

lemma idamax_max (x : List ℝ) {i : ℕ} (hi : i < x.length) :
    |x.getD i 0| ≤ |x.getD (idamax x) 0| := by
  have h := (idamax_foldl_le x (List.range x.length) 0).2 i (List.mem_range.mpr hi)
  exact h

lemma idamax_max_nonneg {x : List ℝ} (hx : ∀ a ∈ x, 0 ≤ a) {i : ℕ} (hi : i < x.length) :
    x.getD i 0 ≤ x.getD (idamax x) 0 := by
  have h1 := idamax_max x hi
  have h2 : x.getD i 0 = |x.getD i 0| := by
    rcases lt_or_le i x.length with h | h
    · rw [abs_of_nonneg (hx _ (getD_mem_of_lt h))]
    · exact absurd hi (not_lt.mpr h)
  have h3 : |x.getD (idamax x) 0| = x.getD (idamax x) 0 ∨ x.getD (idamax x) 0 = 0 := by
    rcases lt_or_le (idamax x) x.length with h | h
    · exact Or.inl (abs_of_nonneg (hx _ (getD_mem_of_lt h)))
    · exact Or.inr (List.getD_eq_default _ _ h)
  rcases h3 with h3 | h3
  · rw [h2]
    rw [h3] at h1
    exact h1
  · rw [h3] at h1 ⊢
    rw [h2]
    simpa using h1

lemma rateMax_nonneg (rate : List ℝ) : 0 ≤ rateMax rate := by
  induction rate with
  | nil => simp [rateMax]
  | cons a l ih =>
    have h : rateMax (a :: l) = max a (rateMax l) := rfl
    rw [h]
    exact le_trans ih (le_max_right a (rateMax l))

lemma getD_le_rateMax (rate : List ℝ) (i : ℕ) : rate.getD i 0 ≤ rateMax rate := by
  induction rate generalizing i with
  | nil =>
    simp [rateMax]
  | cons a l ih =>
    have h : rateMax (a :: l) = max a (rateMax l) := rfl
    rw [h]
    rcases i with _ | i
    · simp
    · have h2 : (a :: l).getD (i + 1) 0 = l.getD i 0 := rfl
      rw [h2]
      exact le_trans (ih i) (le_max_right a (rateMax l))

lemma cf1unif_nonneg {rate : List ℝ} {ufactor : ℝ} (hu : 0 ≤ ufactor) :
    0 ≤ cf1unif rate ufactor :=
  mul_nonneg hu (rateMax_nonneg rate)

lemma getD_le_cf1unif {rate : List ℝ} {ufactor : ℝ} (hu : 1 ≤ ufactor) (i : ℕ) :
    rate.getD i 0 ≤ cf1unif rate ufactor := by
  have h1 := getD_le_rateMax rate i
  have h2 : rateMax rate ≤ ufactor * rateMax rate :=
    le_mul_of_one_le_left (rateMax_nonneg rate) hu
  exact le_trans h1 h2

lemma Pstep_nonneg {rate : List ℝ} {qv : ℝ} (hr : ∀ a ∈ rate, 0 ≤ a)
    (hq : ∀ i, rate.getD i 0 ≤ qv) {x : ℕ → ℝ} (hx : ∀ i, 0 ≤ x i) (i : ℕ) :
    0 ≤ Pstep rate qv x i := by
  have hr' : ∀ j, 0 ≤ rate.getD j 0 := getD_nonneg hr
  have hq0 : 0 ≤ qv := le_trans (hr' 0) (hq 0)
  have hcoef : 0 ≤ 1 - rate.getD i 0 / qv := by
    rcases eq_or_lt_of_le hq0 with h | h
    · rw [← h]
      simp
    · have := div_le_one_of_le₀ (hq i) (le_of_lt h)
      linarith
  unfold Pstep
  have h1 : 0 ≤ (1 - rate.getD i 0 / qv) * x i := mul_nonneg hcoef (hx i)
  have h2 : 0 ≤ (if i = 0 then 0 else rate.getD (i - 1) 0 / qv * x (i - 1)) := by
    by_cases h : i = 0
    · rw [if_pos h]
    · rw [if_neg h]
      exact mul_nonneg (div_nonneg (hr' (i - 1)) hq0) (hx (i - 1))
  linarith

lemma Pstep_sum_le {rate : List ℝ} {qv : ℝ} (hr : ∀ a ∈ rate, 0 ≤ a)
    (hq0 : 0 ≤ qv) {x : ℕ → ℝ} (hx : ∀ i, 0 ≤ x i) (n : ℕ) :
    ∑ i ∈ Finset.range n, Pstep rate qv x i ≤ ∑ i ∈ Finset.range n, x i := by
  have hr' : ∀ j, 0 ≤ rate.getD j 0 := getD_nonneg hr
  rcases n with _ | m
  · simp
  have hsplit : ∑ i ∈ Finset.range (m + 1), Pstep rate qv x i =
      (∑ i ∈ Finset.range (m + 1), (1 - rate.getD i 0 / qv) * x i) +
        ∑ i ∈ Finset.range (m + 1),
          (if i = 0 then 0 else rate.getD (i - 1) 0 / qv * x (i - 1)) := by
    rw [← Finset.sum_add_distrib]
    refine Finset.sum_congr rfl ?_
    intro i _
    rfl
  have hshift : (∑ i ∈ Finset.range (m + 1),
      (if i = 0 then 0 else rate.getD (i - 1) 0 / qv * x (i - 1))) =
      ∑ i ∈ Finset.range m, rate.getD i 0 / qv * x i := by
    rw [Finset.sum_range_succ']
    simp
  have hfirst : (∑ i ∈ Finset.range (m + 1), (1 - rate.getD i 0 / qv) * x i) =
      (∑ i ∈ Finset.range (m + 1), x i) - ∑ i ∈ Finset.range (m + 1), rate.getD i 0 / qv * x i := by
    rw [← Finset.sum_sub_distrib]
    refine Finset.sum_congr rfl ?_
    intro i _
    ring
  rw [hsplit, hshift, hfirst, Finset.sum_range_succ _ m]
  have hsum2 : ∑ i ∈ Finset.range (m + 1), rate.getD i 0 / qv * x i =
      (∑ i ∈ Finset.range m, rate.getD i 0 / qv * x i) + rate.getD m 0 / qv * x m :=
    Finset.sum_range_succ _ m
  have hlast : 0 ≤ rate.getD m 0 / qv * x m :=
    mul_nonneg (div_nonneg (hr' m) hq0) (hx m)
  linarith

lemma Pstep_iterate_nonneg {rate : List ℝ} {qv : ℝ} (hr : ∀ a ∈ rate, 0 ≤ a)
    (hq : ∀ i, rate.getD i 0 ≤ qv) {x : ℕ → ℝ} (hx : ∀ i, 0 ≤ x i) (j : ℕ) (i : ℕ) :
    0 ≤ (Pstep rate qv)^[j] x i := by
  induction j generalizing x with
  | zero => simpa using hx i
  | succ m ih =>
    rw [Function.iterate_succ_apply]
    exact ih (Pstep_nonneg hr hq hx)

lemma Pstep_iterate_sum_le {rate : List ℝ} {qv : ℝ} (hr : ∀ a ∈ rate, 0 ≤ a)
    (hq : ∀ i, rate.getD i 0 ≤ qv) {x : ℕ → ℝ} (hx : ∀ i, 0 ≤ x i) (j : ℕ) (n : ℕ) :
    ∑ i ∈ Finset.range n, (Pstep rate qv)^[j] x i ≤ ∑ i ∈ Finset.range n, x i := by
  have hr' : ∀ i, 0 ≤ rate.getD i 0 := getD_nonneg hr
  have hq0 : 0 ≤ qv := le_trans (hr' 0) (hq 0)
  induction j generalizing x with
  | zero => simp
  | succ m ih =>
    rw [Function.iterate_succ_apply]
    refine le_trans (ih (Pstep_nonneg hr hq hx)) ?_
    exact Pstep_sum_le hr hq0 hx n

lemma mexpv_nonneg {rate : List ℝ} {qv lam : ℝ} (hr : ∀ a ∈ rate, 0 ≤ a)
    (hq : ∀ i, rate.getD i 0 ≤ qv) (hlam : 0 ≤ lam) {x : ℕ → ℝ} (hx : ∀ i, 0 ≤ x i)
    (right : ℕ) (i : ℕ) :
    0 ≤ mexpv rate qv (cf1Pois lam) right (pmfWeight lam 0 right) x i := by
  unfold mexpv
  refine div_nonneg ?_ (le_of_lt (pmfWeight_pos hlam right))
  refine Finset.sum_nonneg ?_
  intro j _
  exact mul_nonneg (cf1Pois_nonneg hlam j) (Pstep_iterate_nonneg hr hq hx j i)

lemma mexpv_sum_le {rate : List ℝ} {qv lam : ℝ} (hr : ∀ a ∈ rate, 0 ≤ a)
    (hq : ∀ i, rate.getD i 0 ≤ qv) (hlam : 0 ≤ lam) {x : ℕ → ℝ} (hx : ∀ i, 0 ≤ x i)
    (right : ℕ) (n : ℕ) :
    ∑ i ∈ Finset.range n, mexpv rate qv (cf1Pois lam) right (pmfWeight lam 0 right) x i ≤
      ∑ i ∈ Finset.range n, x i := by
  have hw := pmfWeight_pos hlam right
  unfold mexpv
  rw [← Finset.sum_div]
  rw [div_le_iff₀ hw]
  rw [Finset.sum_comm]
  have hbound : ∑ j ∈ Finset.range (right + 1),
      (∑ i ∈ Finset.range n, cf1Pois lam j * (Pstep rate qv)^[j] x i) ≤
      ∑ j ∈ Finset.range (right + 1), cf1Pois lam j * ∑ i ∈ Finset.range n, x i := by
    refine Finset.sum_le_sum ?_
    intro j _
    rw [← Finset.mul_sum]
    exact mul_le_mul_of_nonneg_left (Pstep_iterate_sum_le hr hq hx j n) (cf1Pois_nonneg hlam j)
  refine le_trans hbound ?_
  rw [← Finset.sum_mul]
  rw [← pmfWeight_eq_sum_range]
  rw [mul_comm]

lemma cf1Propagate_nonneg {rate : List ℝ} {qv eps t : ℝ} (hr : ∀ a ∈ rate, 0 ≤ a)
    (hq : ∀ i, rate.getD i 0 ≤ qv) (hq0 : 0 ≤ qv) (ht : 0 ≤ t) {x : ℕ → ℝ}
    (hx : ∀ i, 0 ≤ x i) (i : ℕ) :
    0 ≤ cf1Propagate rate qv eps t x i :=
  mexpv_nonneg hr hq (mul_nonneg hq0 ht) hx _ i

lemma cf1Propagate_sum_le {rate : List ℝ} {qv eps t : ℝ} (hr : ∀ a ∈ rate, 0 ≤ a)
    (hq : ∀ i, rate.getD i 0 ≤ qv) (hq0 : 0 ≤ qv) (ht : 0 ≤ t) {x : ℕ → ℝ}
    (hx : ∀ i, 0 ≤ x i) (n : ℕ) :
    ∑ i ∈ Finset.range n, cf1Propagate rate qv eps t x i ≤ ∑ i ∈ Finset.range n, x i :=
  mexpv_sum_le hr hq (mul_nonneg hq0 ht) hx _ n

lemma cf1Propagate_zero {rate : List ℝ} {qv eps : ℝ} (heps : 0 < eps) (x : ℕ → ℝ) :
    cf1Propagate rate qv eps 0 x = x := by
  unfold cf1Propagate
  rw [mul_zero, rightbound_zero heps, pmfWeight_zero]
  funext i
  unfold mexpv
  simp [cf1Pois_zero_zero]

/-- The result-accumulating loop shared by `C_cf1pdf` and `C_cf1cdf`
(src/cf1.cpp lines 44-49 and 78-83): the carried state vector `tmp` is
propagated by one `rightbound`/`pmf`/`mexpv` round per time entry and is
not reset between iterations; `resFn` extracts the per-entry result. -/
noncomputable def cf1Loop (rate : List ℝ) (qv eps : ℝ) (resFn : (ℕ → ℝ) → ℝ) :
    List ℝ → (ℕ → ℝ) → List ℝ
  | [], _ => []
  | t :: rest, tmp =>
    resFn (cf1Propagate rate qv eps t tmp) ::
      cf1Loop rate qv eps resFn rest (cf1Propagate rate qv eps t tmp)

/-- The same iterated propagation as a fold: the state vector after
processing a prefix of the time entries. -/
noncomputable def cf1Fold (rate : List ℝ) (qv eps : ℝ) (ts : List ℝ) (x : ℕ → ℝ) : ℕ → ℝ :=
  ts.foldl (fun v t => cf1Propagate rate qv eps t v) x

/-- The length in which the Poisson weight buffer of `C_cf1pdf`/`C_cf1cdf`
is allocated (src/cf1.cpp lines 41 and 75): `rightbound(qv*tmax, eps) + 1`
with `tmax = dx[idamax(dx)]`. -/
noncomputable def cf1pdfProbLen (dx rate : List ℝ) (eps ufactor : ℝ) : ℕ :=
  rightbound (cf1unif rate ufactor * dx.getD (idamax dx) 0) eps + 1

/-- `C_cf1pdf` (src/cf1.cpp lines 28-55): uniformize the cloned rate vector,
propagate `tmp` (a clone of `alpha`) across the time increments, record
`rate[n-1] * tmp[n-1]` per entry, and take logs when requested. -/
noncomputable def C_cf1pdf (dx alpha rate : List ℝ) (eps ufactor : ℝ) (lg : Bool) : List ℝ :=
  let n := alpha.length
  let qv := cf1unif rate ufactor
  let result :=
    cf1Loop rate qv eps (fun tmp => rate.getD (n - 1) 0 * tmp (n - 1)) dx
      (fun i => alpha.getD i 0)
  if lg then result.map Real.log else result

/-- The survival-like quantity `result` computed by the loop of `C_cf1cdf`
(src/cf1.cpp lines 74-83): `result[i] = dasum(tmp)` after the `i`-th
propagation. It does not depend on the `lower`/`log` flags. -/
noncomputable def cf1cdfResult (dx alpha rate : List ℝ) (eps ufactor : ℝ) : List ℝ :=
  cf1Loop rate (cf1unif rate ufactor) eps (fun tmp => dasum alpha.length tmp) dx
    (fun i => alpha.getD i 0)

/-- `C_cf1cdf` (src/cf1.cpp lines 61-93): the raw loop result followed by
the four-way `lower`/`log` branch of lines 84-92. -/
noncomputable def C_cf1cdf (dx alpha rate : List ℝ) (eps ufactor : ℝ) (lower lg : Bool) :
    List ℝ :=
  let result := cf1cdfResult dx alpha rate eps ufactor
  if lower == false && lg == false then result
  else if lower == true && lg == false then result.map (fun r => 1 - r)
  else if lower == false && lg == true then result.map Real.log
  else result.map (fun r => Real.log (1 - r))

lemma cf1Loop_length (rate : List ℝ) (qv eps : ℝ) (resFn : (ℕ → ℝ) → ℝ) :
    ∀ (dx : List ℝ) (x : ℕ → ℝ), (cf1Loop rate qv eps resFn dx x).length = dx.length := by
  intro dx
  induction dx with
  | nil =>
    intro x
    rfl
  | cons t rest ih =>
    intro x
    have h : cf1Loop rate qv eps resFn (t :: rest) x =
        resFn (cf1Propagate rate qv eps t x) ::
          cf1Loop rate qv eps resFn rest (cf1Propagate rate qv eps t x) := rfl
    rw [h, List.length_cons, ih, List.length_cons]

lemma cf1Loop_getD (rate : List ℝ) (qv eps : ℝ) (resFn : (ℕ → ℝ) → ℝ) :
    ∀ (dx : List ℝ) (x : ℕ → ℝ) (i : ℕ), i < dx.length →
      (cf1Loop rate qv eps resFn dx x).getD i 0 =
        resFn (cf1Fold rate qv eps (dx.take (i + 1)) x) := by
  intro dx
  induction dx with
  | nil =>
    intro x i hi
    exact absurd hi (by simp)
  | cons t rest ih =>
    intro x i hi
    have h : cf1Loop rate qv eps resFn (t :: rest) x =
        resFn (cf1Propagate rate qv eps t x) ::
          cf1Loop rate qv eps resFn rest (cf1Propagate rate qv eps t x) := rfl
    rcases i with _ | m
    · rw [h]
      have htake : (t :: rest).take 1 = [t] := rfl
      rw [htake]
      rfl
    · rw [h]
      have hgd : (resFn (cf1Propagate rate qv eps t x) ::
          cf1Loop rate qv eps resFn rest (cf1Propagate rate qv eps t x)).getD (m + 1) 0 =
          (cf1Loop rate qv eps resFn rest (cf1Propagate rate qv eps t x)).getD m 0 := rfl
      rw [hgd, ih (cf1Propagate rate qv eps t x) m (by simpa using hi)]
      have htake : (t :: rest).take (m + 1 + 1) = t :: rest.take (m + 1) := rfl
      rw [htake]
      rfl

lemma cf1Fold_append (rate : List ℝ) (qv eps : ℝ) (a b : List ℝ) (x : ℕ → ℝ) :
    cf1Fold rate qv eps (a ++ b) x = cf1Fold rate qv eps b (cf1Fold rate qv eps a x) := by
  unfold cf1Fold
  rw [List.foldl_append]

lemma cf1Fold_nonneg {rate : List ℝ} {qv eps : ℝ} (hr : ∀ a ∈ rate, 0 ≤ a)
    (hq : ∀ i, rate.getD i 0 ≤ qv) (hq0 : 0 ≤ qv) :
    ∀ {ts : List ℝ}, (∀ t ∈ ts, 0 ≤ t) → ∀ {x : ℕ → ℝ}, (∀ i, 0 ≤ x i) →
      ∀ i, 0 ≤ cf1Fold rate qv eps ts x i := by
  intro ts
  induction ts with
  | nil =>
    intro _ x hx i
    exact hx i
  | cons t rest ih =>
    intro hts x hx i
    have h : cf1Fold rate qv eps (t :: rest) x =
        cf1Fold rate qv eps rest (cf1Propagate rate qv eps t x) := rfl
    rw [h]
    refine ih (fun u hu => hts u (List.mem_cons_of_mem t hu)) ?_ i
    exact cf1Propagate_nonneg hr hq hq0 (hts t (List.mem_cons_self t rest)) hx

lemma cf1Fold_sum_le {rate : List ℝ} {qv eps : ℝ} (hr : ∀ a ∈ rate, 0 ≤ a)
    (hq : ∀ i, rate.getD i 0 ≤ qv) (hq0 : 0 ≤ qv) (n : ℕ) :
    ∀ {ts : List ℝ}, (∀ t ∈ ts, 0 ≤ t) → ∀ {x : ℕ → ℝ}, (∀ i, 0 ≤ x i) →
      ∑ i ∈ Finset.range n, cf1Fold rate qv eps ts x i ≤ ∑ i ∈ Finset.range n, x i := by
  intro ts
  induction ts with
  | nil =>
    intro _ x _
    exact le_refl _
  | cons t rest ih =>
    intro hts x hx
    have h : cf1Fold rate qv eps (t :: rest) x =
        cf1Fold rate qv eps rest (cf1Propagate rate qv eps t x) := rfl
    rw [h]
    have ht : 0 ≤ t := hts t (List.mem_cons_self t rest)
    have hx2 : ∀ i, 0 ≤ cf1Propagate rate qv eps t x i :=
      cf1Propagate_nonneg hr hq hq0 ht hx
    refine le_trans (ih (fun u hu => hts u (List.mem_cons_of_mem t hu)) hx2) ?_
    exact cf1Propagate_sum_le hr hq hq0 ht hx n

/-- The running state of the `C_cf1sample` loop (src/cf1.cpp lines 102-111):
the progressed count `y`, the remaining initial-mixture mass `prob`, and the
accumulating output vector `res`. -/
structure SampleState where
  y : ℕ
  prob : ℝ
  res : ℕ → ℝ

/-- One phase `l` of the `C_cf1sample` loop (src/cf1.cpp lines 105-111):
draw `rbinom(n - y, alpha[l]/prob)` to advance `y`, subtract `alpha[l]`
from `prob`, and add an exponential holding time `-log(U)/rate[l]` to each
of the first `y` outputs. The random draws are supplied by the oracles
`rbinom` and `runif` (indexed by the call site), standing for R's RNG. -/
noncomputable def cf1sampleStep (n : ℕ) (rbinom : ℕ → ℕ → ℝ → ℕ) (runif : ℕ → ℕ → ℝ)
    (l : ℕ) (al rl : ℝ) (st : SampleState) : SampleState :=
  let y2 := st.y + rbinom l (n - st.y) (al / st.prob)
  ⟨y2, st.prob - al,
    fun i => if i < y2 then st.res i + (-Real.log (runif l i)) / rl else st.res i⟩

/-- The `C_cf1sample` loop after its first `k` phases, starting from
`y = 0`, `prob = 1`, `res = 0` (src/cf1.cpp lines 102-111). -/
noncomputable def cf1sampleFold (n : ℕ) (rbinom : ℕ → ℕ → ℝ → ℕ) (runif : ℕ → ℕ → ℝ)
    (alpha rate : List ℝ) (k : ℕ) : SampleState :=
  (List.range k).foldl
    (fun st l => cf1sampleStep n rbinom runif l (alpha.getD l 0) (rate.getD l 0) st)
    ⟨0, 1, fun _ => 0⟩

/-- `C_cf1sample` (src/cf1.cpp lines 99-113): run the loop over all phases
and return the `n` accumulated variates. -/
noncomputable def C_cf1sample (n : ℕ) (alpha rate : List ℝ) (rbinom : ℕ → ℕ → ℝ → ℕ)
    (runif : ℕ → ℕ → ℝ) : List ℝ :=
  List.ofFn (fun i : Fin n => (cf1sampleFold n rbinom runif alpha rate alpha.length).res i.1)

lemma cf1sampleFold_succ (n : ℕ) (rbinom : ℕ → ℕ → ℝ → ℕ) (runif : ℕ → ℕ → ℝ)
    (alpha rate : List ℝ) (k : ℕ) :
    cf1sampleFold n rbinom runif alpha rate (k + 1) =
      cf1sampleStep n rbinom runif k (alpha.getD k 0) (rate.getD k 0)
        (cf1sampleFold n rbinom runif alpha rate k) := by
  unfold cf1sampleFold
  rw [List.range_succ, List.foldl_append]
  rfl

lemma cf1sampleFold_prob (n : ℕ) (rbinom : ℕ → ℕ → ℝ → ℕ) (runif : ℕ → ℕ → ℝ)
    (alpha rate : List ℝ) :
    ∀ k, (cf1sampleFold n rbinom runif alpha rate k).prob =
      1 - ∑ j ∈ Finset.range k, alpha.getD j 0 := by
  intro k
  induction k with
  | zero => simp [cf1sampleFold]
  | succ m ih =>
    rw [cf1sampleFold_succ, Finset.sum_range_succ]
    have h : (cf1sampleStep n rbinom runif m (alpha.getD m 0) (rate.getD m 0)
        (cf1sampleFold n rbinom runif alpha rate m)).prob =
        (cf1sampleFold n rbinom runif alpha rate m).prob - alpha.getD m 0 := rfl
    rw [h, ih]
    ring

/-- Modelled from the spec: `cf1_sort` (cf1utils.h, not under the sources):
the order-preserving pairwise sort that jointly reorders `(alpha, rate)` by
the rate key into canonical (non-decreasing rate) form (sections 3 and 9 of
the specification). -/
noncomputable def cf1_sort (alpha rate : List ℝ) : List ℝ × List ℝ :=
  let pairs := List.insertionSort (fun p q : ℝ × ℝ => p.1 ≤ q.1) (rate.zip alpha)
  (pairs.map Prod.snd, pairs.map Prod.fst)

/-- `C_cf1reform` (src/cf1.cpp lines 119-124): clone the inputs, sort the
clones jointly into canonical form, and return them as `(alpha, rate)`. -/
noncomputable def C_cf1reform (alpha rate : List ℝ) : List ℝ × List ℝ :=
  cf1_sort alpha rate

lemma cf1_sort_rate_sorted (alpha rate : List ℝ) :
    (cf1_sort alpha rate).2.Sorted (· ≤ ·) := by
  unfold cf1_sort
  have hs : List.Sorted (fun p q : ℝ × ℝ => p.1 ≤ q.1)
      (List.insertionSort (fun p q : ℝ × ℝ => p.1 ≤ q.1) (rate.zip alpha)) := by
    haveI h1 : IsTotal (ℝ × ℝ) (fun p q => p.1 ≤ q.1) := ⟨fun a b => le_total a.1 b.1⟩
    haveI h2 : IsTrans (ℝ × ℝ) (fun p q => p.1 ≤ q.1) :=
      ⟨fun a b c hab hbc => le_trans hab hbc⟩
    exact List.sorted_insertionSort _ _
  rw [List.Sorted] at hs ⊢
  rw [List.pairwise_map]
  exact hs

lemma cf1_sort_perm (alpha rate : List ℝ) :
    (List.insertionSort (fun p q : ℝ × ℝ => p.1 ≤ q.1) (rate.zip alpha)).Perm
      (rate.zip alpha) :=
  List.perm_insertionSort _ _

/-- The truncation bound computed by `C_cf1sojourn` (src/cf1.cpp line 139):
`rightbound(qv*t, eps)`. -/
noncomputable def cf1sojournRight (rate : List ℝ) (t eps ufactor : ℝ) : ℕ :=
  rightbound (cf1unif rate ufactor * t) eps

/-- The length in which `C_cf1sojourn` allocates its Poisson weight buffer
(src/cf1.cpp line 140): `right + 1`, so its valid indices are `0..right`. -/
noncomputable def cf1sojournProbLen (rate : List ℝ) (t eps ufactor : ℝ) : ℕ :=
  cf1sojournRight rate t eps ufactor + 1

/-- The set of buffer indices written by the `pmf(qv*t, 0, right+1, prob)`
call of `C_cf1sojourn` (src/cf1.cpp line 141): `pmf` fills `buf[lo..hi]`. -/
noncomputable def cf1sojournPmfWrites (rate : List ℝ) (t eps ufactor : ℝ) : Finset ℕ :=
  pmfWrites 0 (cf1sojournRight rate t eps ufactor + 1)

/-- Modelled from the spec: the sufficient-statistics vector accumulated by
`mexp_conv` (`ctmc.h` is not under the sources; section 4.5): each entry is
the Poisson-weighted discrete convolution of the forward trajectory with the
backward trajectory, renormalized by `qv * weight`. -/
noncomputable def mexp_conv_H (rate : List ℝ) (qv : ℝ) (prob : ℕ → ℝ) (right : ℕ)
    (weight : ℝ) (f b : ℕ → ℝ) : ℕ → ℝ :=
  fun i =>
    (∑ j ∈ Finset.range (right + 1), prob j *
        ∑ l ∈ Finset.range (j + 1),
          (Pstep rate qv)^[l] f i * (Pstep rate qv)^[j - l] b i) /
      (qv * weight)

/-- `C_cf1sojourn` (src/cf1.cpp lines 130-150): uniformize, compute the
truncation bound and Poisson weights for `qv*t` (the `pmf` call uses the
bounds `0` and `right+1`), and run the forward-backward convolution on a
clone of `f` and on `b`, returning the length-`2n` vector `H`. -/
noncomputable def C_cf1sojourn (alpha rate f b : List ℝ) (t eps ufactor : ℝ) : List ℝ :=
  let n := alpha.length
  let qv := cf1unif rate ufactor
  let right := rightbound (qv * t) eps
  let weight := pmfWeight (qv * t) 0 (right + 1)
  List.ofFn (fun i : Fin (n + n) =>
    mexp_conv_H rate qv (cf1Pois (qv * t)) right weight
      (fun j => f.getD j 0) (fun j => b.getD j 0) i.1)

/-- The CF1 parameter triple of the EM step (src/cf1.cpp lines 168-170). -/
structure CF1Params where
  omega : ℝ
  alpha : List ℝ
  rate : List ℝ

/-- One fault dataset of the EM step (src/cf1.cpp lines 171-173). -/
structure CF1Data where
  time : List ℝ
  fault : List ℤ
  type : List ℤ

/-- The contract violations the EM step reports (specification section 7:
a record with non-positive elapsed time, or an empty parameter vector). -/
inductive EmError where
  | nonPositiveTime : EmError
  | emptyParameter : EmError

/-- The numerical E/M computation of `cf1emstep` (`cf1utils.h` is not under
the sources): from the current parameters and data it produces
`(new_omega, new_alpha, new_rate, llf)`. The embedding abstracts it as a
function argument. -/
def EmCore : Type :=
  ℝ → List ℝ → List ℝ → List ℝ → List ℤ → List ℤ → ℝ → ℝ → ℝ × List ℝ × List ℝ × ℝ

/-- Modelled from the spec: `cf1emstep` (cf1utils.h, not under the sources).
Sections 4.6 and 7: a record with non-positive elapsed time or an empty
parameter vector is a contract violation reported to the caller, never
silently skipped; otherwise the E/M computation `core` runs. -/
noncomputable def cf1emstep (core : EmCore) (omega : ℝ) (alpha rate : List ℝ)
    (time : List ℝ) (num ty : List ℤ) (eps ufactor : ℝ) :
    Except EmError (ℝ × List ℝ × List ℝ × ℝ) :=
  if alpha.length = 0 then .error .emptyParameter
  else if ∃ t ∈ time, t ≤ 0 then .error .nonPositiveTime
  else .ok (core omega alpha rate time num ty eps ufactor)

/-- The list returned by `em_cf1_emstep` (src/cf1.cpp lines 183-196):
the sorted new parameter triple, the elementwise parameter differences,
the log-likelihood, and the total expected count. -/
structure EmResult where
  param : CF1Params
  pdiffOmega : ℝ
  pdiffAlpha : List ℝ
  pdiffRate : List ℝ
  llf : ℝ
  total : ℝ

/-- `em_cf1_emstep` (src/cf1.cpp lines 167-197): run `cf1emstep`, sort the
new `(alpha, rate)` jointly into canonical form, and assemble the result
list: `param`, `pdiff` (new minus old, elementwise), `llf`, `total`. -/
noncomputable def em_cf1_emstep (core : EmCore) (params : CF1Params) (data : CF1Data)
    (eps ufactor : ℝ) : Except EmError EmResult :=
  match cf1emstep core params.omega params.alpha params.rate data.time data.fault
      data.type eps ufactor with
  | .error e => .error e
  | .ok out =>
    .ok ⟨⟨out.1, (cf1_sort out.2.1 out.2.2.1).1, (cf1_sort out.2.1 out.2.2.1).2⟩,
      out.1 - params.omega,
      List.zipWith (fun a b => a - b) (cf1_sort out.2.1 out.2.2.1).1 params.alpha,
      List.zipWith (fun a b => a - b) (cf1_sort out.2.1 out.2.2.1).2 params.rate,
      out.2.2.2, out.1⟩

/-- The vector store: the R-side heap of `NumericVector`s an operation can
touch, addressed by allocation order. Cloning (`Rcpp::clone`) allocates a
fresh cell; in-place routines write an existing cell. -/
abbrev Store : Type := List (List ℝ)

/-- Read the vector held in cell `i` (an absent cell reads as `[]`). -/
def sRead (s : Store) (i : ℕ) : List ℝ := s.getD i []

/-- Allocate a fresh cell holding `v`; returns the new store and the fresh
cell's address. -/
def sAlloc (s : Store) (v : List ℝ) : Store × ℕ := (s ++ [v], s.length)

/-- Overwrite cell `i` with `v` (an in-place vector update). -/
def sWrite (s : Store) (i : ℕ) (v : List ℝ) : Store := s.set i v

/-- The number of cells in the store. -/
def sLen (s : Store) : ℕ := s.length

/-- Every cell below `n` reads the same in `s'` as in `s`. -/
def PreservedBelow (n : ℕ) (s s' : Store) : Prop :=
  ∀ i, i < n → sRead s' i = sRead s i

lemma preservedBelow_refl (n : ℕ) (s : Store) : PreservedBelow n s s :=
  fun _ _ => rfl

lemma preservedBelow_trans {n : ℕ} {s1 s2 s3 : Store} (h1 : PreservedBelow n s1 s2)
    (h2 : PreservedBelow n s2 s3) : PreservedBelow n s1 s3 :=
  fun i hi => (h2 i hi).trans (h1 i hi)

lemma preservedBelow_alloc {n : ℕ} {s : Store} (h : n ≤ sLen s) (v : List ℝ) :
    PreservedBelow n s (s ++ [v]) := by
  intro i hi
  unfold sRead
  rw [List.getD_eq_getElem _ _ (lt_of_lt_of_le hi h)]
  have hlen : i < (s ++ [v]).length := by
    rw [List.length_append]
    exact lt_of_lt_of_le (lt_of_lt_of_le hi h) (Nat.le_add_right _ _)
  rw [List.getD_eq_getElem _ _ hlen]
  rw [List.getElem_append_left (lt_of_lt_of_le hi h)]

lemma preservedBelow_write {n : ℕ} {s : Store} {j : ℕ} (h : n ≤ j) (v : List ℝ) :
    PreservedBelow n s (sWrite s j v) := by
  intro i hi
  unfold sRead sWrite
  have hne : i ≠ j := Nat.ne_of_lt (lt_of_lt_of_le hi h)
  rw [List.getD_eq_getElem?_getD, List.getD_eq_getElem?_getD,
    List.getElem?_set_ne (fun hji => hne hji.symm)]

lemma preservedBelow_write_after {N j : ℕ} {s s' : Store} (h : PreservedBelow N s s')
    (hj : N ≤ j) (v : List ℝ) : PreservedBelow N s (sWrite s' j v) :=
  preservedBelow_trans h (preservedBelow_write hj v)

lemma preservedBelow_alloc_after {N : ℕ} {s s' : Store} (h : PreservedBelow N s s')
    (hlen : N ≤ sLen s') (v : List ℝ) : PreservedBelow N s (s' ++ [v]) :=
  preservedBelow_trans h (preservedBelow_alloc hlen v)

lemma sAlloc_len (s : Store) (v : List ℝ) : sLen (s ++ [v]) = sLen s + 1 := by
  unfold sLen
  rw [List.length_append]
  rfl

lemma sWrite_len (s : Store) (j : ℕ) (v : List ℝ) : sLen (sWrite s j v) = sLen s := by
  unfold sLen sWrite
  rw [List.length_set]

/-- A length-`n` list snapshot of a state-vector function. -/
noncomputable def vecOfFn (n : ℕ) (f : ℕ → ℝ) : List ℝ :=
  List.ofFn (fun i : Fin n => f i.1)

/-- Modelled from the spec: the content of a Poisson weight buffer after
`pmf(λ, lo, hi, buf)` ran on it: indices `lo..hi` hold the Poisson masses,
the other indices keep their previous (stale) content. The fill is checked
against the buffer's bounds: when `hi` is not a valid index the fill writes
out of bounds — undefined behavior in the C++ — and is modelled as
`none`. -/
noncomputable def pmfFillChecked (lam : ℝ) (lo hi : ℕ) (old : List ℝ) : Option (List ℝ) :=
  if hi < old.length then
    some (List.ofFn (fun j : Fin old.length =>
      if lo ≤ j.1 ∧ j.1 ≤ hi then cf1Pois lam j.1 else old.getD j.1 0))
  else none

/-- The store-level loop of `C_cf1pdf`/`C_cf1cdf` (src/cf1.cpp lines 44-49
and 78-83): per time entry it rewrites the Poisson buffer (`pmf`, whose
fill is bounds-checked), the carried state vector `tmp` and the scratch
`xi` (both written by `mexpv`), and the `i`-th result slot; a fill that
would leave the buffer aborts the run. -/
noncomputable def cf1Loop_st (rate : List ℝ) (qv eps : ℝ) (resFn : (ℕ → ℝ) → ℝ) (n : ℕ)
    (probId tmpId xiId resultId : ℕ) : List ℝ → ℕ → Store → Option Store
  | [], _, s => some s
  | t :: rest, i, s =>
    match pmfFillChecked (qv * t) 0 (rightbound (qv * t) eps) (sRead s probId) with
    | none => none
    | some probv =>
      let s1 := sWrite s probId probv
      let tmpv := fun j => (sRead s1 tmpId).getD j 0
      let tmp2 := cf1Propagate rate qv eps t tmpv
      let s2 := sWrite s1 tmpId (vecOfFn n tmp2)
      let s3 := sWrite s2 xiId (vecOfFn n ((Pstep rate qv)^[rightbound (qv * t) eps] tmpv))
      let s4 := sWrite s3 resultId ((sRead s3 resultId).set i (resFn tmp2))
      cf1Loop_st rate qv eps resFn n probId tmpId xiId resultId rest (i + 1) s4

lemma cf1Loop_st_preserves (rate : List ℝ) (qv eps : ℝ) (resFn : (ℕ → ℝ) → ℝ) (n N : ℕ)
    {probId tmpId xiId resultId : ℕ} (hp : N ≤ probId) (ht : N ≤ tmpId) (hx : N ≤ xiId)
    (hr : N ≤ resultId) :
    ∀ (ts : List ℝ) (i : ℕ) (s s' : Store),
      cf1Loop_st rate qv eps resFn n probId tmpId xiId resultId ts i s = some s' →
      PreservedBelow N s s' := by
  intro ts
  induction ts with
  | nil =>
    intro i s s' h
    simp only [cf1Loop_st, Option.some.injEq] at h
    rw [← h]
    exact preservedBelow_refl N s
  | cons t rest ih =>
    intro i s s' h
    simp only [cf1Loop_st] at h
    split at h
    · exact absurd h (by simp)
    · refine preservedBelow_trans ?_ (ih (i + 1) _ s' h)
      refine preservedBelow_write_after ?_ hr _
      refine preservedBelow_write_after ?_ hx _
      refine preservedBelow_write_after ?_ ht _
      exact preservedBelow_write hp _

/-- `C_cf1pdf` over the store (src/cf1.cpp lines 28-55): `P = clone(rate)`
is uniformized in place; `result`, `prob`, `tmp = clone(alpha)` and `xi`
are fresh; the loop writes only those (aborting if a `pmf` fill would leave
the `prob` buffer); the log branch builds a fresh output vector. Returns
the store and the returned vector's address. -/
noncomputable def C_cf1pdf_st (s : Store) (dxId alphaId rateId : ℕ) (eps ufactor : ℝ)
    (lg : Bool) : Option (Store × ℕ) :=
  let dx := sRead s dxId
  let alpha := sRead s alphaId
  let rate := sRead s rateId
  let n := alpha.length
  let pAlloc := sAlloc s rate
  let s1 := sWrite pAlloc.1 pAlloc.2 (unifVec rate ufactor)
  let qv := cf1unif rate ufactor
  let resAlloc := sAlloc s1 (List.replicate dx.length 0)
  let probAlloc := sAlloc resAlloc.1 (List.replicate (cf1pdfProbLen dx rate eps ufactor) 0)
  let tmpAlloc := sAlloc probAlloc.1 alpha
  let xiAlloc := sAlloc tmpAlloc.1 (List.replicate n 0)
  match cf1Loop_st rate qv eps (fun tmp => rate.getD (n - 1) 0 * tmp (n - 1)) n
      probAlloc.2 tmpAlloc.2 xiAlloc.2 resAlloc.2 dx 0 xiAlloc.1 with
  | none => none
  | some s2 =>
    if lg then
      let outAlloc := sAlloc s2 ((sRead s2 resAlloc.2).map Real.log)
      some (outAlloc.1, outAlloc.2)
    else some (s2, resAlloc.2)

/-- `C_cf1cdf` over the store (src/cf1.cpp lines 61-93): as `C_cf1pdf_st`
with `dasum` as the per-entry result, followed by the four-way flag branch;
three of the branches build a fresh output vector. -/
noncomputable def C_cf1cdf_st (s : Store) (dxId alphaId rateId : ℕ) (eps ufactor : ℝ)
    (lower lg : Bool) : Option (Store × ℕ) :=
  let dx := sRead s dxId
  let alpha := sRead s alphaId
  let rate := sRead s rateId
  let n := alpha.length
  let pAlloc := sAlloc s rate
  let s1 := sWrite pAlloc.1 pAlloc.2 (unifVec rate ufactor)
  let qv := cf1unif rate ufactor
  let resAlloc := sAlloc s1 (List.replicate dx.length 0)
  let probAlloc := sAlloc resAlloc.1 (List.replicate (cf1pdfProbLen dx rate eps ufactor) 0)
  let tmpAlloc := sAlloc probAlloc.1 alpha
  let xiAlloc := sAlloc tmpAlloc.1 (List.replicate n 0)
  match cf1Loop_st rate qv eps (fun tmp => dasum n tmp) n
      probAlloc.2 tmpAlloc.2 xiAlloc.2 resAlloc.2 dx 0 xiAlloc.1 with
  | none => none
  | some s2 =>
    if lower == false && lg == false then some (s2, resAlloc.2)
    else if lower == true && lg == false then
      let outAlloc := sAlloc s2 ((sRead s2 resAlloc.2).map (fun r => 1 - r))
      some (outAlloc.1, outAlloc.2)
    else if lower == false && lg == true then
      let outAlloc := sAlloc s2 ((sRead s2 resAlloc.2).map Real.log)
      some (outAlloc.1, outAlloc.2)
    else
      let outAlloc := sAlloc s2 ((sRead s2 resAlloc.2).map (fun r => Real.log (1 - r)))
      some (outAlloc.1, outAlloc.2)

/-- `C_cf1sample` over the store (src/cf1.cpp lines 99-113): `res` is a
fresh zero vector and the only cell the loop writes (once per phase). -/
noncomputable def C_cf1sample_st (s : Store) (n : ℕ) (alphaId rateId : ℕ)
    (rbinom : ℕ → ℕ → ℝ → ℕ) (runif : ℕ → ℕ → ℝ) : Store × ℕ :=
  let alpha := sRead s alphaId
  let rate := sRead s rateId
  let resAlloc := sAlloc s (List.replicate n 0)
  let s2 := (List.range alpha.length).foldl
    (fun st l =>
      sWrite st resAlloc.2 (vecOfFn n (cf1sampleFold n rbinom runif alpha rate (l + 1)).res))
    resAlloc.1
  (s2, resAlloc.2)

/-- `C_cf1reform` over the store (src/cf1.cpp lines 119-124): clone both
inputs, then `cf1_sort` rewrites the two clones in place. -/
noncomputable def C_cf1reform_st (s : Store) (alphaId rateId : ℕ) : Store × ℕ × ℕ :=
  let alpha := sRead s alphaId
  let rate := sRead s rateId
  let aAlloc := sAlloc s alpha
  let rAlloc := sAlloc aAlloc.1 rate
  let s1 := sWrite rAlloc.1 aAlloc.2 (cf1_sort alpha rate).1
  let s2 := sWrite s1 rAlloc.2 (cf1_sort alpha rate).2
  (s2, aAlloc.2, rAlloc.2)

/-- `C_cf1sojourn` over the store (src/cf1.cpp lines 130-150): `P` is a
uniformized clone of `rate`; `prob`, `H`, `f2 = clone(f)`, `xi` and `vc`
are fresh; the `pmf(qv*t, 0, right+1, prob)` call of line 141 is a
bounds-checked fill of `prob` — since `prob` is allocated with length
`right+1` (line 140), filling up to index `right+1` leaves the buffer, an
out-of-bounds write (undefined behavior in the C++) after which the run
aborts (`none`); had it been in bounds, `mexp_conv` would write `H` and the
scratch cells `f2`, `xi`, `vc` (their final scratch content modelled as the
last forward iterate resp. left as allocated), with `b` only read. -/
noncomputable def C_cf1sojourn_st (s : Store) (alphaId rateId fId bId : ℕ)
    (t eps ufactor : ℝ) : Option (Store × ℕ) :=
  let alpha := sRead s alphaId
  let rate := sRead s rateId
  let f := sRead s fId
  let b := sRead s bId
  let n := alpha.length
  let qv := cf1unif rate ufactor
  let right := rightbound (qv * t) eps
  let pAlloc := sAlloc s rate
  let s1 := sWrite pAlloc.1 pAlloc.2 (unifVec rate ufactor)
  let probAlloc := sAlloc s1 (List.replicate (right + 1) 0)
  match pmfFillChecked (qv * t) 0 (right + 1) (sRead probAlloc.1 probAlloc.2) with
  | none => none
  | some probv =>
    let s2 := sWrite probAlloc.1 probAlloc.2 probv
    let hAlloc := sAlloc s2 (List.replicate (n + n) 0)
    let f2Alloc := sAlloc hAlloc.1 f
    let xiAlloc := sAlloc f2Alloc.1 (List.replicate n 0)
    let vcAlloc := sAlloc xiAlloc.1 (List.replicate ((right + 2) * n) 0)
    let weight := pmfWeight (qv * t) 0 (right + 1)
    let s3 := sWrite vcAlloc.1 hAlloc.2 (vecOfFn (n + n)
      (mexp_conv_H rate qv (cf1Pois (qv * t)) right weight
        (fun j => f.getD j 0) (fun j => b.getD j 0)))
    let s4 := sWrite s3 f2Alloc.2 (vecOfFn n ((Pstep rate qv)^[right] (fun j => f.getD j 0)))
    let s5 := sWrite s4 xiAlloc.2 (vecOfFn n ((Pstep rate qv)^[right] (fun j => f.getD j 0)))
    let s6 := sWrite s5 vcAlloc.2 (List.replicate ((right + 2) * n) 0)
    some (s6, hAlloc.2)

/-- The store-level E/M core: as `EmCore`, over store-held vectors. -/
def EmCoreR : Type :=
  ℝ → List ℝ → List ℝ → List ℝ → List ℝ → List ℝ → ℝ → ℝ → ℝ × List ℝ × List ℝ × ℝ

/-- `em_cf1_emstep` over the store (src/cf1.cpp lines 167-197): `new_alpha`
and `new_rate` are fresh zero vectors filled by `cf1emstep` and then sorted
in place by `cf1_sort`; the `pdiff` vectors are fresh; every input cell is
only read. -/
noncomputable def em_cf1_emstep_st (s : Store) (alphaId rateId timeId numId typeId : ℕ)
    (omega eps ufactor : ℝ) (core : EmCoreR) : Store × ℕ × ℕ :=
  let alpha := sRead s alphaId
  let rate := sRead s rateId
  let time := sRead s timeId
  let num := sRead s numId
  let ty := sRead s typeId
  let n := alpha.length
  let naAlloc := sAlloc s (List.replicate n 0)
  let nrAlloc := sAlloc naAlloc.1 (List.replicate n 0)
  let out := core omega alpha rate time num ty eps ufactor
  let s1 := sWrite nrAlloc.1 naAlloc.2 out.2.1
  let s2 := sWrite s1 nrAlloc.2 out.2.2.1
  let s3 := sWrite s2 naAlloc.2 (cf1_sort (sRead s2 naAlloc.2) (sRead s2 nrAlloc.2)).1
  let s4 := sWrite s3 nrAlloc.2 (cf1_sort (sRead s2 naAlloc.2) (sRead s2 nrAlloc.2)).2
  let paAlloc := sAlloc s4 (List.zipWith (fun a b => a - b) (sRead s4 naAlloc.2) alpha)
  let prAlloc := sAlloc paAlloc.1
    (List.zipWith (fun a b => a - b) (sRead paAlloc.1 nrAlloc.2) rate)
  (prAlloc.1, naAlloc.2, nrAlloc.2)

lemma sAlloc_fst (s : Store) (v : List ℝ) : (sAlloc s v).1 = s ++ [v] := rfl

lemma sAlloc_snd (s : Store) (v : List ℝ) : (sAlloc s v).2 = sLen s := rfl

lemma sRead_alloc_self (s : Store) (v : List ℝ) : sRead (s ++ [v]) (sLen s) = v := by
  unfold sRead sLen
  rw [List.getD_append_right _ _ _ _ (le_refl s.length)]
  simp

lemma sLen_append_one (s : Store) (v : List ℝ) : sLen (s ++ [v]) = sLen s + 1 := by
  unfold sLen
  rw [List.length_append]
  rfl

lemma sLen_write (s : Store) (j : ℕ) (v : List ℝ) : sLen (sWrite s j v) = sLen s := by
  unfold sLen sWrite
  rw [List.length_set]

lemma pmfFillChecked_overflow (lam : ℝ) (lo r : ℕ) :
    pmfFillChecked lam lo (r + 1) (List.replicate (r + 1) (0 : ℝ)) = none := by
  unfold pmfFillChecked
  rw [List.length_replicate]
  rw [if_neg (lt_irrefl _)]

lemma cf1Loop_st_length (rate : List ℝ) (qv eps : ℝ) (resFn : (ℕ → ℝ) → ℝ)
    (n probId tmpId xiId resultId : ℕ) :
    ∀ (ts : List ℝ) (i : ℕ) (s s' : Store),
      cf1Loop_st rate qv eps resFn n probId tmpId xiId resultId ts i s = some s' →
      s'.length = s.length := by
  intro ts
  induction ts with
  | nil =>
    intro i s s' h
    simp only [cf1Loop_st, Option.some.injEq] at h
    rw [← h]
  | cons t rest ih =>
    intro i s s' h
    simp only [cf1Loop_st] at h
    split at h
    · exact absurd h (by simp)
    · rw [ih (i + 1) _ s' h]
      unfold sWrite
      simp only [List.length_set]

lemma C_cf1pdf_st_preserves (s : Store) (dxId alphaId rateId : ℕ) (eps ufactor : ℝ)
    (lg : Bool) (p : Store × ℕ)
    (hp : C_cf1pdf_st s dxId alphaId rateId eps ufactor lg = some p) :
    PreservedBelow (sLen s) s p.1 := by
  unfold C_cf1pdf_st at hp
  simp only [sAlloc_fst, sAlloc_snd] at hp
  split at hp
  · exact absurd hp (by simp)
  · rename_i s2 heq
    have hpres : PreservedBelow (sLen s) s s2 := by
      refine preservedBelow_trans ?_
        (cf1Loop_st_preserves _ _ _ _ _ (sLen s) ?_ ?_ ?_ ?_ _ 0 _ s2 heq)
      refine preservedBelow_alloc_after ?_ ?_ _
      refine preservedBelow_alloc_after ?_ ?_ _
      refine preservedBelow_alloc_after ?_ ?_ _
      refine preservedBelow_alloc_after ?_ ?_ _
      refine preservedBelow_write_after ?_ ?_ _
      refine preservedBelow_alloc (le_refl _) _
      all_goals simp only [sLen, sWrite, List.length_append, List.length_set,
        List.length_cons, List.length_nil]
      all_goals omega
    have hlen2 := cf1Loop_st_length _ _ _ _ _ _ _ _ _ _ 0 _ s2 heq
    simp only [sWrite, List.length_append, List.length_set, List.length_cons,
      List.length_nil] at hlen2
    cases lg with
    | false =>
      rw [if_neg Bool.false_ne_true] at hp
      have hp2 := Option.some.inj hp
      rw [← hp2]
      exact hpres
    | true =>
      rw [if_pos rfl] at hp
      have hp2 := Option.some.inj hp
      rw [← hp2]
      refine preservedBelow_alloc_after hpres ?_ _
      simp only [sLen]
      omega

lemma preservedBelow_foldl_write {N j : ℕ} (hj : N ≤ j) (vf : Store → ℕ → List ℝ) :
    ∀ (L : List ℕ) (s : Store),
      PreservedBelow N s (L.foldl (fun st l => sWrite st j (vf st l)) s) := by
  intro L
  induction L with
  | nil =>
    intro s
    exact preservedBelow_refl N s
  | cons a L ih =>
    intro s
    refine preservedBelow_trans (preservedBelow_write hj (vf s a)) (ih _)

lemma C_cf1cdf_st_preserves (s : Store) (dxId alphaId rateId : ℕ) (eps ufactor : ℝ)
    (lower lg : Bool) (p : Store × ℕ)
    (hp : C_cf1cdf_st s dxId alphaId rateId eps ufactor lower lg = some p) :
    PreservedBelow (sLen s) s p.1 := by
  unfold C_cf1cdf_st at hp
  simp only [sAlloc_fst, sAlloc_snd] at hp
  split at hp
  · exact absurd hp (by simp)
  · rename_i s2 heq
    have hpres : PreservedBelow (sLen s) s s2 := by
      refine preservedBelow_trans ?_
        (cf1Loop_st_preserves _ _ _ _ _ (sLen s) ?_ ?_ ?_ ?_ _ 0 _ s2 heq)
      refine preservedBelow_alloc_after ?_ ?_ _
      refine preservedBelow_alloc_after ?_ ?_ _
      refine preservedBelow_alloc_after ?_ ?_ _
      refine preservedBelow_alloc_after ?_ ?_ _
      refine preservedBelow_write_after ?_ ?_ _
      refine preservedBelow_alloc (le_refl _) _
      all_goals simp only [sLen, sWrite, List.length_append, List.length_set,
        List.length_cons, List.length_nil]
      all_goals omega
    have hlen2 := cf1Loop_st_length _ _ _ _ _ _ _ _ _ _ 0 _ s2 heq
    simp only [sWrite, List.length_append, List.length_set, List.length_cons,
      List.length_nil] at hlen2
    have halloc : sLen s ≤ sLen s2 := by
      simp only [sLen]
      omega
    cases lower with
    | false =>
      cases lg with
      | false =>
        rw [if_pos (by decide)] at hp
        have hp2 := Option.some.inj hp
        rw [← hp2]
        exact hpres
      | true =>
        rw [if_neg (by decide), if_neg (by decide), if_pos (by decide)] at hp
        have hp2 := Option.some.inj hp
        rw [← hp2]
        exact preservedBelow_alloc_after hpres halloc _
    | true =>
      cases lg with
      | false =>
        rw [if_neg (by decide), if_pos (by decide)] at hp
        have hp2 := Option.some.inj hp
        rw [← hp2]
        exact preservedBelow_alloc_after hpres halloc _
      | true =>
        rw [if_neg (by decide), if_neg (by decide), if_neg (by decide)] at hp
        have hp2 := Option.some.inj hp
        rw [← hp2]
        exact preservedBelow_alloc_after hpres halloc _

lemma C_cf1sample_st_preserves (s : Store) (n : ℕ) (alphaId rateId : ℕ)
    (rbinom : ℕ → ℕ → ℝ → ℕ) (runif : ℕ → ℕ → ℝ) :
    PreservedBelow (sLen s) s (C_cf1sample_st s n alphaId rateId rbinom runif).1 := by
  unfold C_cf1sample_st
  simp only [sAlloc_fst, sAlloc_snd]
  refine preservedBelow_trans ?_ (preservedBelow_foldl_write (le_refl _) _ _ _)
  exact preservedBelow_alloc (le_refl _) _

lemma C_cf1reform_st_preserves (s : Store) (alphaId rateId : ℕ) :
    PreservedBelow (sLen s) s (C_cf1reform_st s alphaId rateId).1 := by
  unfold C_cf1reform_st
  simp only [sAlloc_fst, sAlloc_snd]
  refine preservedBelow_write_after ?_ ?_ _
  refine preservedBelow_write_after ?_ ?_ _
  refine preservedBelow_alloc_after ?_ ?_ _
  refine preservedBelow_alloc (le_refl _) _
  all_goals simp only [sLen, sWrite, List.length_append, List.length_set,
    List.length_cons, List.length_nil]
  all_goals omega

lemma C_cf1sojourn_st_aborts (s : Store) (alphaId rateId fId bId : ℕ)
    (t eps ufactor : ℝ) :
    C_cf1sojourn_st s alphaId rateId fId bId t eps ufactor = none := by
  unfold C_cf1sojourn_st
  simp only [sAlloc_fst, sAlloc_snd]
  rw [sRead_alloc_self]
  rw [pmfFillChecked_overflow]

lemma em_cf1_emstep_st_preserves (s : Store) (alphaId rateId timeId numId typeId : ℕ)
    (omega eps ufactor : ℝ) (core : EmCoreR) :
    PreservedBelow (sLen s) s
      (em_cf1_emstep_st s alphaId rateId timeId numId typeId omega eps ufactor core).1 := by
  unfold em_cf1_emstep_st
  simp only [sAlloc_fst, sAlloc_snd]
  refine preservedBelow_alloc_after ?_ ?_ _
  refine preservedBelow_alloc_after ?_ ?_ _
  refine preservedBelow_write_after ?_ ?_ _
  refine preservedBelow_write_after ?_ ?_ _
  refine preservedBelow_write_after ?_ ?_ _
  refine preservedBelow_write_after ?_ ?_ _
  refine preservedBelow_alloc_after ?_ ?_ _
  refine preservedBelow_alloc (le_refl _) _
  all_goals simp only [sLen, sWrite, List.length_append, List.length_set,
    List.length_cons, List.length_nil]
  all_goals omega

lemma getD_map_lt {l : List ℝ} {f : ℝ → ℝ} {i : ℕ} (h : i < l.length) :
    (l.map f).getD i 0 = f (l.getD i 0) := by
  have h2 : i < (l.map f).length := by
    rw [List.length_map]
    exact h
  rw [List.getD_eq_getElem _ _ h, List.getD_eq_getElem _ _ h2, List.getElem_map]

lemma cf1cdfResult_length (dx alpha rate : List ℝ) (eps ufactor : ℝ) :
    (cf1cdfResult dx alpha rate eps ufactor).length = dx.length :=
  cf1Loop_length _ _ _ _ dx _

/-- C1: every flag combination of `C_cf1cdf` is derived from the single
flag-independent survival-like quantity `cf1cdfResult` (the sum of the
propagated state vector): the returned list is `result` for
`lower = false, log = false`, `1 - result` for `lower = true, log = false`,
`log result` for `lower = false, log = true`, and `log (1 - result)` for
`lower = true, log = true`; consequently, on the natural scale,
`cdf(lower=true) + cdf(lower=false) = 1` entrywise for every `t`, `eps`,
`ufactor`. -/
theorem C_cf1cdf_four_flags_one_result (dx alpha rate : List ℝ) (eps ufactor : ℝ) :
    C_cf1cdf dx alpha rate eps ufactor false false = cf1cdfResult dx alpha rate eps ufactor ∧
    C_cf1cdf dx alpha rate eps ufactor true false =
      (cf1cdfResult dx alpha rate eps ufactor).map (fun r => 1 - r) ∧
    C_cf1cdf dx alpha rate eps ufactor false true =
      (cf1cdfResult dx alpha rate eps ufactor).map Real.log ∧
    C_cf1cdf dx alpha rate eps ufactor true true =
      (cf1cdfResult dx alpha rate eps ufactor).map (fun r => Real.log (1 - r)) ∧
    ∀ i, i < dx.length →
      (C_cf1cdf dx alpha rate eps ufactor true false).getD i 0 +
        (C_cf1cdf dx alpha rate eps ufactor false false).getD i 0 = 1 := by
  refine ⟨rfl, rfl, rfl, rfl, ?_⟩
  intro i hi
  have hlen : i < (cf1cdfResult dx alpha rate eps ufactor).length := by
    rw [cf1cdfResult_length]
    exact hi
  have h1 : C_cf1cdf dx alpha rate eps ufactor true false =
      (cf1cdfResult dx alpha rate eps ufactor).map (fun r => 1 - r) := rfl
  have h0 : C_cf1cdf dx alpha rate eps ufactor false false =
      cf1cdfResult dx alpha rate eps ufactor := rfl
  rw [h1, h0, getD_map_lt hlen]
  ring

/-- C7: at elapsed time zero the whole `rightbound`/`pmf`/`mexpv` pipeline
is the identity: with `λ = qv·0 = 0` the truncation bound is 0, the Poisson
weights reduce to a single-point mass 1 at index 0 (weight 1), and the
propagated vector is returned unchanged. -/
theorem cf1_pipeline_identity_at_zero (rate : List ℝ) (qv eps : ℝ) (x : ℕ → ℝ)
    (heps : 0 < eps) :
    rightbound 0 eps = 0 ∧ cf1Pois 0 0 = 1 ∧ pmfWeight 0 0 0 = 1 ∧
      cf1Propagate rate qv eps 0 x = x :=
  ⟨rightbound_zero heps, cf1Pois_zero_zero, pmfWeight_zero, cf1Propagate_zero heps x⟩

/-- C7 witness: the pipeline identity at zero, instantiated at a concrete
rate vector, `qv`, tolerance and state vector. -/
theorem cf1_pipeline_identity_at_zero_witness :
    rightbound 0 1 = 0 ∧ cf1Pois 0 0 = 1 ∧ pmfWeight 0 0 0 = 1 ∧
      cf1Propagate [2] 3 1 0 (fun i : ℕ => (i : ℝ)) = fun i : ℕ => (i : ℝ) :=
  cf1_pipeline_identity_at_zero [2] 3 1 (fun i : ℕ => (i : ℝ)) zero_lt_one

/-- C10: in `C_cf1pdf` and `C_cf1cdf` the propagated state vector is not
reset between loop iterations: the `i`-th result entry is the per-entry
functional of the propagation folded over the first `i+1` entries of `dx`
starting from `alpha`, so each entry refers to the cumulative elapsed time
`dx[0]+...+dx[i]` — the `dx` argument is a list of successive time
increments, not of independent absolute time points. -/
theorem cf1pdf_cdf_tmp_threads (dx alpha rate : List ℝ) (eps ufactor : ℝ) (i : ℕ)
    (hi : i < dx.length) :
    (C_cf1pdf dx alpha rate eps ufactor false).getD i 0 =
      rate.getD (alpha.length - 1) 0 *
        cf1Fold rate (cf1unif rate ufactor) eps (dx.take (i + 1))
          (fun j => alpha.getD j 0) (alpha.length - 1) ∧
    (cf1cdfResult dx alpha rate eps ufactor).getD i 0 =
      dasum alpha.length
        (cf1Fold rate (cf1unif rate ufactor) eps (dx.take (i + 1))
          (fun j => alpha.getD j 0)) := by
  constructor
  · have h : C_cf1pdf dx alpha rate eps ufactor false =
        cf1Loop rate (cf1unif rate ufactor) eps
          (fun tmp => rate.getD (alpha.length - 1) 0 * tmp (alpha.length - 1)) dx
          (fun j => alpha.getD j 0) := rfl
    rw [h, cf1Loop_getD _ _ _ _ dx _ i hi]
  · have h : cf1cdfResult dx alpha rate eps ufactor =
        cf1Loop rate (cf1unif rate ufactor) eps (fun tmp => dasum alpha.length tmp) dx
          (fun j => alpha.getD j 0) := rfl
    rw [h, cf1Loop_getD _ _ _ _ dx _ i hi]

/-- C10 witness: the threading identity at a concrete two-entry time list. -/
theorem cf1pdf_cdf_tmp_threads_witness :
    (C_cf1pdf [1, 2] [1] [1] 1 1 false).getD 1 0 =
      ([1] : List ℝ).getD (([1] : List ℝ).length - 1) 0 *
        cf1Fold [1] (cf1unif [1] 1) 1 (([1, 2] : List ℝ).take 2)
          (fun j => ([1] : List ℝ).getD j 0) (([1] : List ℝ).length - 1) ∧
    (cf1cdfResult [1, 2] [1] [1] 1 1).getD 1 0 =
      dasum ([1] : List ℝ).length
        (cf1Fold [1] (cf1unif [1] 1) 1 (([1, 2] : List ℝ).take 2)
          (fun j => ([1] : List ℝ).getD j 0)) :=
  cf1pdf_cdf_tmp_threads [1, 2] [1] [1] 1 1 1 (by decide)

/-- C5: every `pmf` write of `C_cf1pdf`/`C_cf1cdf` stays within the Poisson
buffer allocated with length `rightbound(qv*tmax, eps) + 1`: the per-entry
write-set `[0 .. rightbound(qv*dx[i], eps)]` is contained in the buffer's
valid indices, because `dx[i] ≤ tmax = dx[idamax dx]` and `rightbound` is
monotonically non-decreasing in `λ` for fixed `eps`. -/
theorem cf1pdf_prob_writes_in_bounds (dx rate : List ℝ) (eps ufactor : ℝ) (i : ℕ)
    (hdx : ∀ t ∈ dx, 0 ≤ t) (hu : 0 ≤ ufactor) (heps : 0 < eps) (hi : i < dx.length) :
    pmfWrites 0 (rightbound (cf1unif rate ufactor * dx.getD i 0) eps) ⊆
      Finset.range (cf1pdfProbLen dx rate eps ufactor) := by
  have hq0 : 0 ≤ cf1unif rate ufactor := cf1unif_nonneg hu
  have hdi : 0 ≤ dx.getD i 0 := getD_nonneg hdx i
  have hmax : dx.getD i 0 ≤ dx.getD (idamax dx) 0 := idamax_max_nonneg hdx hi
  have hlam : cf1unif rate ufactor * dx.getD i 0 ≤
      cf1unif rate ufactor * dx.getD (idamax dx) 0 :=
    mul_le_mul_of_nonneg_left hmax hq0
  have hlam0 : 0 ≤ cf1unif rate ufactor * dx.getD i 0 := mul_nonneg hq0 hdi
  have hmono := rightbound_mono hlam0 hlam heps
  intro j hj
  rw [pmfWrites, Finset.mem_Icc] at hj
  rw [Finset.mem_range, cf1pdfProbLen]
  omega

/-- C5 witness: the containment at a concrete time list, rate vector and
tolerance. -/
theorem cf1pdf_prob_writes_in_bounds_witness :
    (∀ t ∈ ([0, 1] : List ℝ), 0 ≤ t) ∧
      pmfWrites 0 (rightbound (cf1unif [1] 1 * ([0, 1] : List ℝ).getD 0 0) 1) ⊆
        Finset.range (cf1pdfProbLen [0, 1] [1] 1 1) := by
  have h : ∀ t ∈ ([0, 1] : List ℝ), 0 ≤ t := by
    intro t ht
    rcases List.mem_cons.mp ht with h | h
    · rw [h]
    · rw [List.mem_singleton.mp h]
      exact zero_le_one
  exact ⟨h, cf1pdf_prob_writes_in_bounds [0, 1] [1] 1 1 0 h zero_le_one zero_lt_one
    (by decide)⟩

/-- C6 (the claim fails on the code): the `pmf(qv*t, 0, right+1, prob)` call
of `C_cf1sojourn` fills `prob[0..right+1]`, but `prob` is allocated with
length `right+1` (valid indices `0..right`), so the write-set always
contains the out-of-bounds index `right+1` and is never contained in the
buffer's valid indices. -/
theorem cf1sojourn_pmf_write_overflows (rate : List ℝ) (t eps ufactor : ℝ) :
    ¬ (cf1sojournPmfWrites rate t eps ufactor ⊆
        Finset.range (cf1sojournProbLen rate t eps ufactor)) := by
  intro h
  have hmem : cf1sojournRight rate t eps ufactor + 1 ∈
      cf1sojournPmfWrites rate t eps ufactor := by
    rw [cf1sojournPmfWrites, pmfWrites, Finset.mem_Icc]
    omega
  have h2 := h hmem
  rw [Finset.mem_range, cf1sojournProbLen] at h2
  omega

/-- C2: `C_cf1sample` returns exactly `n` variates built by the
binomial-split loop: at the start of phase `l` the remaining mass is
`prob = 1 - Σ_{j<l} alpha[j]`; phase `l` advances the progressed count by
the `Binomial(n - y, alpha[l]/prob)` draw, updates `prob` by subtracting
`alpha[l]`, and adds an exponential holding time `-log U / rate[l]` to each
of the first `y` outputs. -/
theorem C_cf1sample_binomial_split (n : ℕ) (alpha rate : List ℝ)
    (rbinom : ℕ → ℕ → ℝ → ℕ) (runif : ℕ → ℕ → ℝ) (l : ℕ) (hl : l < alpha.length) :
    (C_cf1sample n alpha rate rbinom runif).length = n ∧
    (cf1sampleFold n rbinom runif alpha rate l).prob =
      1 - ∑ j ∈ Finset.range l, alpha.getD j 0 ∧
    (cf1sampleFold n rbinom runif alpha rate (l + 1)).y =
      (cf1sampleFold n rbinom runif alpha rate l).y +
        rbinom l (n - (cf1sampleFold n rbinom runif alpha rate l).y)
          (alpha.getD l 0 / (cf1sampleFold n rbinom runif alpha rate l).prob) ∧
    (cf1sampleFold n rbinom runif alpha rate (l + 1)).prob =
      (cf1sampleFold n rbinom runif alpha rate l).prob - alpha.getD l 0 ∧
    ∀ i, (cf1sampleFold n rbinom runif alpha rate (l + 1)).res i =
      (if i < (cf1sampleFold n rbinom runif alpha rate (l + 1)).y
        then (cf1sampleFold n rbinom runif alpha rate l).res i +
          (-Real.log (runif l i)) / rate.getD l 0
        else (cf1sampleFold n rbinom runif alpha rate l).res i) := by
  refine ⟨?_, cf1sampleFold_prob n rbinom runif alpha rate l, ?_, ?_, ?_⟩
  · rw [C_cf1sample, List.length_ofFn]
  · rw [cf1sampleFold_succ]
    rfl
  · rw [cf1sampleFold_succ]
    rfl
  · intro i
    rw [cf1sampleFold_succ]
    rfl

/-- C2 witness: the binomial-split loop shape at one phase with concrete
oracles. -/
theorem C_cf1sample_binomial_split_witness :
    (C_cf1sample 2 [1] [2] (fun _ _ _ => 1) (fun _ _ => 1)).length = 2 ∧
    (cf1sampleFold 2 (fun _ _ _ => 1) (fun _ _ => 1) [1] [2] 0).prob =
      1 - ∑ j ∈ Finset.range 0, ([1] : List ℝ).getD j 0 ∧
    (cf1sampleFold 2 (fun _ _ _ => 1) (fun _ _ => 1) [1] [2] (0 + 1)).y =
      (cf1sampleFold 2 (fun _ _ _ => 1) (fun _ _ => 1) [1] [2] 0).y +
        (fun (_ : ℕ) (_ : ℕ) (_ : ℝ) => 1) 0
          (2 - (cf1sampleFold 2 (fun _ _ _ => 1) (fun _ _ => 1) [1] [2] 0).y)
          (([1] : List ℝ).getD 0 0 /
            (cf1sampleFold 2 (fun _ _ _ => 1) (fun _ _ => 1) [1] [2] 0).prob) ∧
    (cf1sampleFold 2 (fun _ _ _ => 1) (fun _ _ => 1) [1] [2] (0 + 1)).prob =
      (cf1sampleFold 2 (fun _ _ _ => 1) (fun _ _ => 1) [1] [2] 0).prob -
        ([1] : List ℝ).getD 0 0 ∧
    ∀ i, (cf1sampleFold 2 (fun _ _ _ => 1) (fun _ _ => 1) [1] [2] (0 + 1)).res i =
      (if i < (cf1sampleFold 2 (fun _ _ _ => 1) (fun _ _ => 1) [1] [2] (0 + 1)).y
        then (cf1sampleFold 2 (fun _ _ _ => 1) (fun _ _ => 1) [1] [2] 0).res i +
          (-Real.log ((fun (_ : ℕ) (_ : ℕ) => (1 : ℝ)) 0 i)) / ([2] : List ℝ).getD 0 0
        else (cf1sampleFold 2 (fun _ _ _ => 1) (fun _ _ => 1) [1] [2] 0).res i) :=
  C_cf1sample_binomial_split 2 [1] [2] (fun _ _ _ => 1) (fun _ _ => 1) 0 (by decide)

/-- C4: the EM step reports an error to the caller — rather than returning
an ordinary result or silently skipping — whenever the dataset contains a
record with non-positive elapsed time or the parameter vector has length
zero. -/
theorem em_cf1_emstep_reports_bad_input (core : EmCore) (params : CF1Params)
    (data : CF1Data) (eps ufactor : ℝ)
    (h : params.alpha.length = 0 ∨ ∃ t ∈ data.time, t ≤ 0) :
    ∃ e, em_cf1_emstep core params data eps ufactor = Except.error e := by
  unfold em_cf1_emstep cf1emstep
  by_cases h0 : params.alpha.length = 0
  · rw [if_pos h0]
    exact ⟨EmError.emptyParameter, rfl⟩
  · rcases h with h | h
    · exact absurd h h0
    · rw [if_neg h0, if_pos h]
      exact ⟨EmError.nonPositiveTime, rfl⟩

/-- C4 witness: the EM step errors on an empty parameter vector. -/
theorem em_cf1_emstep_reports_bad_input_witness :
    ∃ e, em_cf1_emstep (fun _ _ _ _ _ _ _ _ => (0, [], [], 0)) ⟨0, [], []⟩ ⟨[1], [1], [1]⟩
      1 1 = Except.error e :=
  em_cf1_emstep_reports_bad_input (fun _ _ _ _ _ _ _ _ => (0, [], [], 0)) ⟨0, [], []⟩
    ⟨[1], [1], [1]⟩ 1 1 (Or.inl rfl)

lemma zip_map_fst_snd_eq (l : List (ℝ × ℝ)) : (l.map Prod.fst).zip (l.map Prod.snd) = l := by
  have h := List.zip_unzip l
  rw [List.unzip_eq_map] at h
  exact h

/-- C3: a successful `em_cf1_emstep` returns the new parameter triple with
the new `alpha` and `rate` jointly sorted into canonical (non-decreasing
rate) form before being returned, a `pdiff` component equal to the
elementwise difference between the returned (sorted) parameters and the
inputs, the core's log-likelihood, and a `total` field equal to the
returned new `omega`. -/
theorem em_cf1_emstep_result_structure (core : EmCore) (params : CF1Params)
    (data : CF1Data) (eps ufactor : ℝ) (hn : params.alpha.length ≠ 0)
    (htime : ∀ t ∈ data.time, 0 < t) :
    ∃ res, em_cf1_emstep core params data eps ufactor = Except.ok res ∧
      res.param.omega =
        (core params.omega params.alpha params.rate data.time data.fault data.type
          eps ufactor).1 ∧
      res.param.alpha =
        (cf1_sort
          (core params.omega params.alpha params.rate data.time data.fault data.type
            eps ufactor).2.1
          (core params.omega params.alpha params.rate data.time data.fault data.type
            eps ufactor).2.2.1).1 ∧
      res.param.rate =
        (cf1_sort
          (core params.omega params.alpha params.rate data.time data.fault data.type
            eps ufactor).2.1
          (core params.omega params.alpha params.rate data.time data.fault data.type
            eps ufactor).2.2.1).2 ∧
      res.param.rate.Sorted (· ≤ ·) ∧
      (res.param.rate.zip res.param.alpha).Perm
        ((core params.omega params.alpha params.rate data.time data.fault data.type
            eps ufactor).2.2.1.zip
          (core params.omega params.alpha params.rate data.time data.fault data.type
            eps ufactor).2.1) ∧
      res.pdiffOmega = res.param.omega - params.omega ∧
      res.pdiffAlpha = List.zipWith (fun a b => a - b) res.param.alpha params.alpha ∧
      res.pdiffRate = List.zipWith (fun a b => a - b) res.param.rate params.rate ∧
      res.llf = (core params.omega params.alpha params.rate data.time data.fault
        data.type eps ufactor).2.2.2 ∧
      res.total = res.param.omega := by
  have hne : ¬ ∃ t ∈ data.time, t ≤ 0 := by
    intro hex
    obtain ⟨t, ht, hle⟩ := hex
    exact absurd hle (not_le.mpr (htime t ht))
  have hstep : cf1emstep core params.omega params.alpha params.rate data.time data.fault
      data.type eps ufactor =
      Except.ok (core params.omega params.alpha params.rate data.time data.fault
        data.type eps ufactor) := by
    unfold cf1emstep
    rw [if_neg hn, if_neg hne]
  set o := core params.omega params.alpha params.rate data.time data.fault data.type
    eps ufactor with ho
  have hmain : em_cf1_emstep core params data eps ufactor =
      Except.ok ⟨⟨o.1, (cf1_sort o.2.1 o.2.2.1).1, (cf1_sort o.2.1 o.2.2.1).2⟩,
        o.1 - params.omega,
        List.zipWith (fun a b => a - b) (cf1_sort o.2.1 o.2.2.1).1 params.alpha,
        List.zipWith (fun a b => a - b) (cf1_sort o.2.1 o.2.2.1).2 params.rate,
        o.2.2.2, o.1⟩ := by
    unfold em_cf1_emstep
    rw [hstep]
  refine ⟨_, hmain, rfl, rfl, rfl, cf1_sort_rate_sorted _ _, ?_, rfl, rfl, rfl, rfl, rfl⟩
  unfold cf1_sort
  rw [zip_map_fst_snd_eq]
  exact cf1_sort_perm _ _

/-- C3 witness: the EM step result structure at a concrete core and data. -/
theorem em_cf1_emstep_result_structure_witness :
    (∀ t ∈ ([1] : List ℝ), 0 < t) ∧
    ∃ res, em_cf1_emstep (fun _ _ _ _ _ _ _ _ => (5, [1], [2], 7)) ⟨1, [1], [2]⟩
        ⟨[1], [1], [1]⟩ 1 1 = Except.ok res ∧
      res.param.omega = ((5 : ℝ), ([1] : List ℝ), ([2] : List ℝ), (7 : ℝ)).1 ∧
      res.param.alpha = (cf1_sort [1] [2]).1 ∧
      res.param.rate = (cf1_sort [1] [2]).2 ∧
      res.param.rate.Sorted (· ≤ ·) ∧
      (res.param.rate.zip res.param.alpha).Perm (([2] : List ℝ).zip [1]) ∧
      res.pdiffOmega = res.param.omega - 1 ∧
      res.pdiffAlpha = List.zipWith (fun a b => a - b) res.param.alpha [1] ∧
      res.pdiffRate = List.zipWith (fun a b => a - b) res.param.rate [2] ∧
      res.llf = (7 : ℝ) ∧
      res.total = res.param.omega := by
  have hpos : ∀ t ∈ ([1] : List ℝ), 0 < t := by
    intro t ht
    rw [List.mem_singleton.mp ht]
    exact zero_lt_one
  exact ⟨hpos, em_cf1_emstep_result_structure (fun _ _ _ _ _ _ _ _ => (5, [1], [2], 7))
    ⟨1, [1], [2]⟩ ⟨[1], [1], [1]⟩ 1 1 (by decide) hpos⟩

lemma dasum_eq_sum {n : ℕ} {x : ℕ → ℝ} (hx : ∀ i, 0 ≤ x i) :
    dasum n x = ∑ i ∈ Finset.range n, x i := by
  unfold dasum
  refine Finset.sum_congr rfl ?_
  intro i _
  exact abs_of_nonneg (hx i)

/-- C8: for nonnegative time increments and valid (nonnegative) `alpha` and
`rate`, the lower-tail natural-scale CDF of `C_cf1cdf` is non-decreasing in
elapsed time: later entries (larger cumulative times) are at least as large
as earlier ones. -/
theorem C_cf1cdf_lower_monotone (dx alpha rate : List ℝ) (eps ufactor : ℝ)
    (hdx : ∀ t ∈ dx, 0 ≤ t) (halpha : ∀ a ∈ alpha, 0 ≤ a) (hrate : ∀ a ∈ rate, 0 ≤ a)
    (hu : 1 ≤ ufactor) (i j : ℕ) (hij : i ≤ j) (hj : j < dx.length) :
    (C_cf1cdf dx alpha rate eps ufactor true false).getD i 0 ≤
      (C_cf1cdf dx alpha rate eps ufactor true false).getD j 0 := by
  have hi : i < dx.length := lt_of_le_of_lt hij hj
  have hq : ∀ m, rate.getD m 0 ≤ cf1unif rate ufactor := getD_le_cf1unif hu
  have hq0 : 0 ≤ cf1unif rate ufactor := cf1unif_nonneg (le_trans zero_le_one hu)
  have hx0 : ∀ m, 0 ≤ alpha.getD m 0 := getD_nonneg halpha
  have hmap : C_cf1cdf dx alpha rate eps ufactor true false =
      (cf1cdfResult dx alpha rate eps ufactor).map (fun r => 1 - r) := rfl
  have hleni : i < (cf1cdfResult dx alpha rate eps ufactor).length := by
    rw [cf1cdfResult_length]
    exact hi
  have hlenj : j < (cf1cdfResult dx alpha rate eps ufactor).length := by
    rw [cf1cdfResult_length]
    exact hj
  have hcdfloop : cf1cdfResult dx alpha rate eps ufactor =
      cf1Loop rate (cf1unif rate ufactor) eps (fun tmp => dasum alpha.length tmp) dx
        (fun m => alpha.getD m 0) := rfl
  have hresi : (cf1cdfResult dx alpha rate eps ufactor).getD i 0 =
      dasum alpha.length
        (cf1Fold rate (cf1unif rate ufactor) eps (dx.take (i + 1))
          (fun m => alpha.getD m 0)) := by
    rw [hcdfloop, cf1Loop_getD _ _ _ _ dx _ i hi]
  have hresj : (cf1cdfResult dx alpha rate eps ufactor).getD j 0 =
      dasum alpha.length
        (cf1Fold rate (cf1unif rate ufactor) eps (dx.take (j + 1))
          (fun m => alpha.getD m 0)) := by
    rw [hcdfloop, cf1Loop_getD _ _ _ _ dx _ j hj]
  have htakei : ∀ t ∈ dx.take (i + 1), 0 ≤ t := fun t ht => hdx t (List.take_subset _ _ ht)
  have hfoldi : ∀ m, 0 ≤ cf1Fold rate (cf1unif rate ufactor) eps (dx.take (i + 1))
      (fun m => alpha.getD m 0) m :=
    cf1Fold_nonneg hrate hq hq0 htakei hx0
  have htakej : ∀ t ∈ dx.take (j + 1), 0 ≤ t := fun t ht => hdx t (List.take_subset _ _ ht)
  have hfoldj : ∀ m, 0 ≤ cf1Fold rate (cf1unif rate ufactor) eps (dx.take (j + 1))
      (fun m => alpha.getD m 0) m :=
    cf1Fold_nonneg hrate hq hq0 htakej hx0
  have hsplit : dx.take (j + 1) = dx.take (i + 1) ++ (dx.take (j + 1)).drop (i + 1) := by
    have h1 : (dx.take (j + 1)).take (i + 1) = dx.take (i + 1) := by
      rw [List.take_take, min_eq_left (by omega)]
    conv_lhs => rw [← List.take_append_drop (i + 1) (dx.take (j + 1))]
    rw [h1]
  have hseg : ∀ t ∈ (dx.take (j + 1)).drop (i + 1), 0 ≤ t :=
    fun t ht => hdx t (List.take_subset _ _ (List.drop_subset _ _ ht))
  have hfold_eq : cf1Fold rate (cf1unif rate ufactor) eps (dx.take (j + 1))
      (fun m => alpha.getD m 0) =
      cf1Fold rate (cf1unif rate ufactor) eps ((dx.take (j + 1)).drop (i + 1))
        (cf1Fold rate (cf1unif rate ufactor) eps (dx.take (i + 1))
          (fun m => alpha.getD m 0)) := by
    conv_lhs => rw [hsplit]
    rw [cf1Fold_append]
  have hsum_le : ∑ m ∈ Finset.range alpha.length,
      cf1Fold rate (cf1unif rate ufactor) eps (dx.take (j + 1))
        (fun m => alpha.getD m 0) m ≤
      ∑ m ∈ Finset.range alpha.length,
        cf1Fold rate (cf1unif rate ufactor) eps (dx.take (i + 1))
          (fun m => alpha.getD m 0) m := by
    rw [hfold_eq]
    exact cf1Fold_sum_le hrate hq hq0 alpha.length hseg hfoldi
  rw [hmap, getD_map_lt hleni, getD_map_lt hlenj, hresi, hresj,
    dasum_eq_sum hfoldi, dasum_eq_sum hfoldj]
  linarith

/-- C8 witness: monotonicity at a concrete two-entry time list. -/
theorem C_cf1cdf_lower_monotone_witness :
    (∀ t ∈ ([1, 1] : List ℝ), 0 ≤ t) ∧
      (C_cf1cdf [1, 1] [1] [1] 1 1 true false).getD 0 0 ≤
        (C_cf1cdf [1, 1] [1] [1] 1 1 true false).getD 1 0 := by
  have hdx : ∀ t ∈ ([1, 1] : List ℝ), 0 ≤ t := by
    intro t ht
    rcases List.mem_cons.mp ht with h | h
    · rw [h]
      exact zero_le_one
    · rw [List.mem_singleton.mp h]
      exact zero_le_one
  have hone : ∀ a ∈ ([1] : List ℝ), 0 ≤ a := by
    intro a ha
    rw [List.mem_singleton.mp ha]
    exact zero_le_one
  exact ⟨hdx, C_cf1cdf_lower_monotone [1, 1] [1] [1] 1 1 hdx hone hone (le_refl 1) 0 1
    (by omega) (by decide)⟩

/-- C9 counterexample: the claim as stated is false for `C_cf1sojourn`: at
a concrete input, the index set its `pmf` call writes is not contained in
the freshly allocated Poisson buffer's valid indices (it spills one cell
past the buffer), and the bounds-checked run aborts at that out-of-bounds
write instead of completing with its mutations confined to fresh
vectors. -/
theorem cf1sojourn_mutation_not_confined :
    ¬ (cf1sojournPmfWrites [1] 1 1 1 ⊆ Finset.range (cf1sojournProbLen [1] 1 1 1)) ∧
      C_cf1sojourn_st [[1], [1], [1], [1]] 0 1 2 3 1 1 1 = none := by
  constructor
  · intro hsub
    have hmem : cf1sojournRight [1] 1 1 1 + 1 ∈ cf1sojournPmfWrites [1] 1 1 1 := by
      rw [cf1sojournPmfWrites, pmfWrites, Finset.mem_Icc]
      omega
    have h2 := hsub hmem
    rw [Finset.mem_range, cf1sojournProbLen] at h2
    omega
  · exact C_cf1sojourn_st_aborts [[1], [1], [1], [1]] 0 1 2 3 1 1 1

/-- C9 (amended): `C_cf1pdf`, `C_cf1cdf`, `C_cf1sample`, `C_cf1reform` and
`em_cf1_emstep` leave all of their input vectors unchanged: over the store
model every write of theirs targets a freshly cloned or freshly allocated
cell (for `C_cf1pdf` and `C_cf1cdf`, whose Poisson fills are
bounds-checked, in every completed run), so every cell that existed before
the call — the inputs included — reads the same after it. `C_cf1sojourn`
is the exception the counterexample forces: its `pmf` call writes out of
the bounds of its freshly allocated Poisson buffer on every call (the C6
overflow), so its run never completes in the in-bounds write model and the
code extends no unchanged-inputs guarantee to it. -/
theorem cf1_public_ops_preserve_inputs (s : Store)
    (dxId alphaId rateId fId bId timeId numId typeId : ℕ) (n : ℕ)
    (omega t eps ufactor : ℝ) (lower lg : Bool) (rbinom : ℕ → ℕ → ℝ → ℕ)
    (runif : ℕ → ℕ → ℝ) (core : EmCoreR) (i : ℕ) (hi : i < sLen s) :
    (∀ p, C_cf1pdf_st s dxId alphaId rateId eps ufactor lg = some p →
      sRead p.1 i = sRead s i) ∧
    (∀ p, C_cf1cdf_st s dxId alphaId rateId eps ufactor lower lg = some p →
      sRead p.1 i = sRead s i) ∧
    sRead (C_cf1sample_st s n alphaId rateId rbinom runif).1 i = sRead s i ∧
    sRead (C_cf1reform_st s alphaId rateId).1 i = sRead s i ∧
    sRead (em_cf1_emstep_st s alphaId rateId timeId numId typeId omega eps ufactor
      core).1 i = sRead s i ∧
    C_cf1sojourn_st s alphaId rateId fId bId t eps ufactor = none :=
  ⟨fun p hp => C_cf1pdf_st_preserves s dxId alphaId rateId eps ufactor lg p hp i hi,
    fun p hp => C_cf1cdf_st_preserves s dxId alphaId rateId eps ufactor lower lg p hp i hi,
    C_cf1sample_st_preserves s n alphaId rateId rbinom runif i hi,
    C_cf1reform_st_preserves s alphaId rateId i hi,
    em_cf1_emstep_st_preserves s alphaId rateId timeId numId typeId omega eps ufactor
      core i hi,
    C_cf1sojourn_st_aborts s alphaId rateId fId bId t eps ufactor⟩

/-- C9 witness: input preservation over a concrete three-cell store. -/
theorem cf1_public_ops_preserve_inputs_witness :
    (∀ p, C_cf1pdf_st [[1], [1], [2]] 0 1 2 1 1 false = some p →
      sRead p.1 0 = sRead [[1], [1], [2]] 0) ∧
    (∀ p, C_cf1cdf_st [[1], [1], [2]] 0 1 2 1 1 true false = some p →
      sRead p.1 0 = sRead [[1], [1], [2]] 0) ∧
    sRead (C_cf1sample_st [[1], [1], [2]] 2 1 2 (fun _ _ _ => 1) (fun _ _ => 1)).1 0 =
      sRead [[1], [1], [2]] 0 ∧
    sRead (C_cf1reform_st [[1], [1], [2]] 1 2).1 0 = sRead [[1], [1], [2]] 0 ∧
    sRead (em_cf1_emstep_st [[1], [1], [2]] 1 2 0 0 0 1 1 1
      (fun _ _ _ _ _ _ _ _ => (0, [], [], 0))).1 0 = sRead [[1], [1], [2]] 0 ∧
    C_cf1sojourn_st [[1], [1], [2]] 1 2 0 0 1 1 1 = none :=
  cf1_public_ops_preserve_inputs [[1], [1], [2]] 0 1 2 0 0 0 0 0 2 1 1 1 1 true false
    (fun _ _ _ => 1) (fun _ _ => 1) (fun _ _ _ _ _ _ _ _ => (0, [], [], 0)) 0
    (by simp [sLen])
